import Mathlib

/-!
Verification of the tool-calling execution environment of Agent-R1
(agent_r1/tool/tool_env.py and agent_r1/tool/tools/python_tool.py).

The embedding is functional: Python objects become Lean structures, in-place
mutation becomes explicit state passing, a raised exception becomes the
error case of an Except value.  Rewards (Python floats, here always small
decimal constants) are modelled as rationals.
-/

set_option maxHeartbeats 1000000

namespace AgentR1

/-! ## JSON values

The source decodes model output with the external json library.  JSON values
are modelled by the inductive J; decoded objects are association lists with
unique keys (duplicate keys collapse, later occurrence winning, as in Python).
-/

/-- JSON values as decoded by the external json library used by the source. -/
inductive J where
  | null : J
  | jb : Bool → J
  | jn : Rat → J
  | js : String → J
  | ja : List J → J
  | jo : List (String × J) → J

instance : Inhabited J := ⟨J.null⟩

/-- Key lookup in a decoded object, as Python d[k] / d.get(k). -/
def jlookup (k : String) : List (String × J) → Option J
  | [] => none
  | (k', v) :: rest => if k' = k then some v else jlookup k rest

/-- Collapse duplicate keys the way Python dicts do when json builds them:
the value of the last occurrence wins, the key keeps its first position. -/
def pyDictOfPairs : List (String × J) → List (String × J)
  | [] => []
  | (k, v) :: rest =>
    let rest' := pyDictOfPairs rest
    match jlookup k rest' with
    | some v' => (k, v') :: rest'.filter (fun p => p.1 ≠ k)
    | none => (k, v) :: rest'

/-! ## A JSON parser modelling json.loads

Strict JSON as Python's json.loads accepts it (the NaN/Infinity extension is
not modelled; no sentence under verification involves it).  Recursion is by
explicit fuel; json_loads supplies fuel larger than any possible recursion
depth for its input.
-/

def openBraceChar : Char := Char.ofNat 123

def closeBraceChar : Char := Char.ofNat 125

def jsonWsChar (c : Char) : Bool := c == ' ' || c == '\t' || c == '\n' || c == '\r'

def skipWs (cs : List Char) : List Char := cs.dropWhile jsonWsChar

def isDigitChar (c : Char) : Bool := 48 ≤ c.toNat && c.toNat ≤ 57

def digitsToNat (ds : List Char) : Nat := ds.foldl (fun n c => n * 10 + (c.toNat - 48)) 0

def hexVal (c : Char) : Option Nat :=
  if 48 ≤ c.toNat && c.toNat ≤ 57 then some (c.toNat - 48)
  else if 97 ≤ c.toNat && c.toNat ≤ 102 then some (c.toNat - 87)
  else if 65 ≤ c.toNat && c.toNat ≤ 70 then some (c.toNat - 55)
  else none

/-- JSON string escapes. -/
def escChar (e : Char) : Option Char :=
  if e == '"' then some '"'
  else if e == '\\' then some '\\'
  else if e == '/' then some '/'
  else if e == 'b' then some (Char.ofNat 8)
  else if e == 'f' then some (Char.ofNat 12)
  else if e == 'n' then some '\n'
  else if e == 'r' then some '\r'
  else if e == 't' then some '\t'
  else none

/-- Body of a JSON string after the opening quote: returns the decoded
characters and the input following the closing quote. -/
def parseStringChars (fuel : Nat) (cs : List Char) : Option (List Char × List Char) :=
  match fuel, cs with
  | 0, _ => none
  | _, [] => none
  | fuel + 1, c :: rest =>
    if c == '"' then some ([], rest)
    else if c == '\\' then
      match rest with
      | [] => none
      | e :: rest' =>
        if e == 'u' then
          match rest' with
          | h1 :: h2 :: h3 :: h4 :: rest'' =>
            match hexVal h1, hexVal h2, hexVal h3, hexVal h4 with
            | some a, some b, some c', some d =>
              (parseStringChars fuel rest'').map
                (fun p => (Char.ofNat (((a * 16 + b) * 16 + c') * 16 + d) :: p.1, p.2))
            | _, _, _, _ => none
          | _ => none
        else
          match escChar e with
          | some ec => (parseStringChars fuel rest').map (fun p => (ec :: p.1, p.2))
          | none => none
    else if c.toNat < 32 then none
    else (parseStringChars fuel rest).map (fun p => (c :: p.1, p.2))

/-- A JSON number starting at the head of the input. -/
def parseNumAux (cs : List Char) : Option (Rat × List Char) :=
  let (neg, cs1) :=
    match cs with
    | '-' :: rest => (true, rest)
    | _ => (false, cs)
  match cs1 with
  | [] => none
  | c :: _ =>
    if !isDigitChar c then none
    else
      let intDigits := if c == '0' then ['0'] else cs1.takeWhile isDigitChar
      let cs2 := cs1.drop intDigits.length
      let fracDigits :=
        match cs2 with
        | '.' :: rest => rest.takeWhile isDigitChar
        | _ => []
      let fracBad :=
        match cs2 with
        | '.' :: _ => fracDigits.isEmpty
        | _ => false
      if fracBad then none
      else
        let cs3 :=
          match cs2 with
          | '.' :: rest => rest.drop fracDigits.length
          | _ => cs2
        let expInfo :=
          match cs3 with
          | e :: rest =>
            if e == 'e' || e == 'E' then
              match rest with
              | '+' :: r2 => some (false, r2.takeWhile isDigitChar, r2.drop (r2.takeWhile isDigitChar).length)
              | '-' :: r2 => some (true, r2.takeWhile isDigitChar, r2.drop (r2.takeWhile isDigitChar).length)
              | r2 => some (false, r2.takeWhile isDigitChar, r2.drop (r2.takeWhile isDigitChar).length)
            else none
          | [] => none
        match expInfo with
        | some (_, expDigits, _) =>
          if expDigits.isEmpty then none
          else
            let mantissa : Rat :=
              (digitsToNat intDigits : Rat) + (digitsToNat fracDigits : Rat) / ((10 : Rat) ^ fracDigits.length)
            let m := if neg then -mantissa else mantissa
            match expInfo with
            | some (expNeg, eds, rest4) =>
              some ((if expNeg then m / ((10 : Rat) ^ digitsToNat eds) else m * ((10 : Rat) ^ digitsToNat eds)), rest4)
            | none => none
        | none =>
          let mantissa : Rat :=
            (digitsToNat intDigits : Rat) + (digitsToNat fracDigits : Rat) / ((10 : Rat) ^ fracDigits.length)
          some ((if neg then -mantissa else mantissa), cs3)

mutual

/-- One JSON value starting at the head of the input (leading whitespace allowed). -/
def parseVal (fuel : Nat) (cs : List Char) : Option (J × List Char) :=
  match fuel with
  | 0 => none
  | fuel + 1 =>
    match skipWs cs with
    | [] => none
    | c :: rest =>
      if c == '"' then
        (parseStringChars (rest.length + 1) rest).map (fun p => (J.js (String.mk p.1), p.2))
      else if c == openBraceChar then
        match skipWs rest with
        | d :: rest2 =>
          if d == closeBraceChar then some (J.jo [], rest2)
          else (parseMembers fuel rest).map (fun p => (J.jo (pyDictOfPairs p.1), p.2))
        | [] => none
      else if c == '[' then
        match skipWs rest with
        | d :: rest2 =>
          if d == ']' then some (J.ja [], rest2)
          else (parseItems fuel rest).map (fun p => (J.ja p.1, p.2))
        | [] => none
      else if c == 't' then
        if ['r', 'u', 'e'].isPrefixOf rest then some (J.jb true, rest.drop 3) else none
      else if c == 'f' then
        if ['a', 'l', 's', 'e'].isPrefixOf rest then some (J.jb false, rest.drop 4) else none
      else if c == 'n' then
        if ['u', 'l', 'l'].isPrefixOf rest then some (J.null, rest.drop 3) else none
      else
        (parseNumAux (c :: rest)).map (fun p => (J.jn p.1, p.2))

/-- Comma-separated array items, consuming the closing bracket. -/
def parseItems (fuel : Nat) (cs : List Char) : Option (List J × List Char) :=
  match fuel with
  | 0 => none
  | fuel + 1 =>
    match parseVal fuel cs with
    | none => none
    | some (v, rest) =>
      match skipWs rest with
      | ',' :: rest2 => (parseItems fuel rest2).map (fun p => (v :: p.1, p.2))
      | ']' :: rest2 => some ([v], rest2)
      | _ => none

/-- Comma-separated object members, consuming the closing brace. -/
def parseMembers (fuel : Nat) (cs : List Char) : Option (List (String × J) × List Char) :=
  match fuel with
  | 0 => none
  | fuel + 1 =>
    match skipWs cs with
    | [] => none
    | k :: rest =>
      if k == '"' then
        match parseStringChars (rest.length + 1) rest with
        | none => none
        | some (keyChars, rest2) =>
          match skipWs rest2 with
          | ':' :: rest3 =>
            match parseVal fuel rest3 with
            | none => none
            | some (v, rest4) =>
              match skipWs rest4 with
              | c2 :: rest5 =>
                if c2 == ',' then
                  (parseMembers fuel rest5).map (fun p => ((String.mk keyChars, v) :: p.1, p.2))
                else if c2 == closeBraceChar then some ([(String.mk keyChars, v)], rest5)
                else none
              | [] => none
          | _ => none
      else none

end

/-- The external json.loads: decode a whole string as one JSON document. -/
def json_loads (s : String) : Option J :=
  let cs := s.toList
  match parseVal (cs.length + 2) cs with
  | none => none
  | some (v, rest) => if (skipWs rest).isEmpty then some v else none

/-! ## Action parsing (ToolEnv.extract_tool_call, tool_env.py lines 357-392) -/

/-- Split the input at the first occurrence of pat, returning the part before
it and the part after it. -/
def splitFirst (pat : List Char) : List Char → Option (List Char × List Char)
  | [] => if pat.isEmpty then some ([], []) else none
  | c :: cs =>
    if pat.isPrefixOf (c :: cs) then some ([], (c :: cs).drop pat.length)
    else (splitFirst pat cs).map (fun p => (c :: p.1, p.2))

def TOOL_CALL_OPEN : List Char := "<tool_call>".toList

def TOOL_CALL_CLOSE : List Char := "</tool_call>".toList

/-- Content of the first tool-call block: the regex search for
<tool_call>(.*?)</tool_call> with DOTALL.  The leftmost match starts at the
first opening delimiter; its non-greedy group ends at the first closing
delimiter after it (the closing delimiter cannot overlap the opening one). -/
def findToolCallBlock (text : String) : Option String :=
  match splitFirst TOOL_CALL_OPEN text.toList with
  | none => none
  | some (_, rest) =>
    match splitFirst TOOL_CALL_CLOSE rest with
    | none => none
    | some (content, _) => some (String.mk content)

/-- Python str.strip(): remove leading and trailing whitespace. -/
def pyWsChar (c : Char) : Bool :=
  c == ' ' || c == '\t' || c == '\n' || c == '\r' || c == Char.ofNat 11 || c == Char.ofNat 12

/-- Python str.strip() on a string. -/
def pyStrip (s : String) : String :=
  String.mk (((s.toList.dropWhile pyWsChar).reverse.dropWhile pyWsChar).reverse)

/-- The dictionary produced by extract_tool_call: Python
returns the dict with keys "tool" and "args". -/
structure ActionDict where
  tool : J
  args : J

instance : Inhabited ActionDict := ⟨⟨J.null, J.null⟩⟩

/-- ToolEnv.INVALID_ACTION (tool_env.py line 266). -/
def INVALID_ACTION : ActionDict := ⟨J.js "invalid", J.jo []⟩

/-- Python equality test action == ToolEnv.INVALID_ACTION: dict equality of
the two-key dicts.  The sentinel's tool is the string "invalid" and its args
the empty dict, so the test is exactly this (dict equality against the empty
dict is emptiness; equality of any JSON value against a str is string
equality on strings and false otherwise). -/
def isInvalidAction (a : ActionDict) : Bool :=
  (match a.tool with
   | J.js s => s == "invalid"
   | _ => false) &&
  (match a.args with
   | J.jo kvs => kvs.isEmpty
   | _ => false)

/-- ToolEnv.extract_tool_call (tool_env.py lines 357-392).  A missing block,
a decode failure, a decoded non-dict (whose "name" membership test or
indexing raises, caught by the bare except) and a dict without "name" all
collapse to INVALID_ACTION; an absent "arguments" defaults to the empty
dict. -/
def extract_tool_call (text : String) : ActionDict :=
  match findToolCallBlock text with
  | none => INVALID_ACTION
  | some raw =>
    match json_loads (pyStrip raw) with
    | none => INVALID_ACTION
    | some (J.jo kvs) =>
      match jlookup "name" kvs with
      | none => INVALID_ACTION
      | some nameVal => ⟨nameVal, (jlookup "arguments" kvs).getD (J.jo [])⟩
    | some _ => INVALID_ACTION

/-! ## The Tool contract

tool_base.py is not part of the sources provided; the Tool interface is
modelled from the spec (section 3): a named unit of work with argument
validation, single and batched execution, and reward computation.  A call
of execute that raises is its error case; batch_execute either raises as a
whole or returns a list of results.
-/

/-- Modelled from the spec: the Tool base class of tool_base.py is missing
from the sources; per the spec a tool carries a unique name, validate(args)
returning a flag and an error message, execute(args) returning a result or
raising, batchExecute(args-list) returning a result list in input order or
raising as a whole, and reward(args, result). -/
structure Tool where
  name : String
  validate_args : J → Bool × String
  execute : J → Except String String
  batch_execute : List J → Except String (List String)
  calculate_reward : J → String → Rat

instance : Inhabited Tool :=
  ⟨⟨"", fun _ => (true, ""), fun _ => .ok "", fun _ => .ok [], fun _ _ => 0⟩⟩

/-- Modelled from the spec: the default batched execution of a tool performs
the single executions in input order ("batching is an optimization, not a
semantic change"); a fault in one of them surfaces as a whole-batch fault
(the spec records that a whole-batch fault has no per-index recovery). -/
def defaultBatchExecute (t : Tool) : List J → Except String (List String)
  | [] => .ok []
  | a :: l =>
    match t.execute a with
    | .error e => .error e
    | .ok r =>
      match defaultBatchExecute t l with
      | .error e => .error e
      | .ok rs => .ok (r :: rs)

/-- A tool that honours the strict positional contract of the spec: when its
batched execution returns, the result list has the length of its input. -/
def LenPreserving (t : Tool) : Prop :=
  ∀ l rs, t.batch_execute l = .ok rs → rs.length = l.length

/-! ## Episode state (class ToolEnv, tool_env.py lines 245-355) -/

/-- One entry of tool_history (a ToolCallRecord). -/
structure HistEntry where
  tool : String
  args : J
  result : String

/-- The info dict returned by a transition. -/
structure Info where
  action_is_valid : Bool
  action_is_effective : Bool

/-- The (observation, reward, done, info) tuple returned by a transition. -/
structure StepRes where
  obs : String
  reward : Rat
  done : Bool
  info : Info

/-- The mutable state of a ToolEnv.  The type of the tool slots is a
parameter so the same record serves the stateless model (slots hold Tool
values) and the instance-heap model of cloning (slots hold references).
Fields _actions, _actions_valid, _actions_effective keep their source
names. -/
structure ToolEnvG (τ : Type) where
  tools : List τ
  max_turns : Nat
  rewards : List Rat
  tool_history : List HistEntry
  steps_taken : Nat
  _actions : List String
  _actions_valid : List (Option ActionDict)
  _actions_effective : List (Option ActionDict)

abbrev ToolEnv := ToolEnvG Tool

/-- ToolEnv.__init__: a fresh episode (reset_tracking_variables). -/
def ToolEnv.init (tools : List Tool) (max_turns : Nat) : ToolEnv :=
  ⟨tools, max_turns, [], [], 0, [], [], []⟩

/-- The tool_map dict built in __init__: name-keyed lookup over the tool
list, a later tool with the same name overwriting an earlier one. -/
def ToolEnv.tool_map (env : ToolEnv) (name : String) : Option Tool :=
  env.tools.foldl (fun acc t => if t.name = name then some t else acc) none

/-- Tool lookup keyed by the decoded "name" value: tool_map keys are the
tool name strings, so a non-string (hashable) name is never found. -/
def lookupByName (env : ToolEnv) (tn : J) : Option Tool :=
  match tn with
  | J.js s => env.tool_map s
  | _ => none

/-- Python str() of a decoded "name" value, as interpolated into the
"Unknown tool" message.  Only the string case is reachable in any sentence
under verification (a hashable non-string name reaches the unknown-tool
branch in the source; its rendering is best effort here). -/
def jNameStr : J → String
  | J.js s => s
  | J.jb true => "True"
  | J.jb false => "False"
  | J.null => "None"
  | J.jn q => if q.den = 1 then toString q.num else toString q
  | _ => ""

/-- ToolEnv.PENALTY_FOR_INVALID (tool_env.py line 267). -/
def PENALTY_FOR_INVALID : Rat := -(1 / 10)

/-- ToolEnv.PENALTY_FOR_INEFFECTIVE (tool_env.py line 268). -/
def PENALTY_FOR_INEFFECTIVE : Rat := -(1 / 20)

/-- ToolEnv._update_tracking_variables (tool_env.py lines 322-355): appends
the raw response, the action or a null marker depending on the two flags,
and the reward. -/
def update_tracking (env : ToolEnv) (response : String) (action : ActionDict)
    (action_is_valid : Bool) (action_is_effective : Bool) (reward : Rat) : ToolEnv :=
  { env with
    _actions := env._actions ++ [response]
    _actions_valid := env._actions_valid ++ [if action_is_valid then some action else none]
    _actions_effective := env._actions_effective ++ [if action_is_effective then some action else none]
    rewards := env.rewards ++ [reward] }

/-- The fixed instructional observation of the invalid-format branch
(tool_env.py lines 32 and 144). -/
def invalidObs : String :=
  "Invalid tool call format. Please use <tool_call>\x7b\"name\": \"tool_name\", \"arguments\": \x7bparams_json\x7d\x7d</tool_call> format."

/-! ## Transition resolution shared by step and step_batch

The three failure branches of step (tool_env.py lines 31-74) and the first
pass of step_batch (lines 143-191) are textually identical in the source:
same observations, penalties, tracking updates and result tuples.  They are
captured once by classify; step resolves the remaining execution inline,
step_batch defers it to the grouped second pass.
-/

/-- Outcome of the shared resolution: either the transition is resolved on a
failure branch (episode already stepped, result tuple final), or it is a
valid call of a known tool with schema-valid arguments, left for execution.
A grouped outcome records the group key (the tool name), the decoded
arguments, the tool instance this episode's tool_map yields, the raw text
and the episode still unstepped. -/
inductive P1 where
  | resolved : StepRes → ToolEnv → P1
  | grouped : String → J → Tool → String → ToolEnv → P1

/-- The shared resolution logic (tool_env.py lines 31-74 and 143-191): parse
the action; an invalid action, an unknown tool and invalid arguments are
resolved at once with their penalties; otherwise the call is left for
execution. -/
def classify (env0 : ToolEnv) (action_text : String) : P1 :=
  let action := extract_tool_call action_text
  if isInvalidAction action then
    let env := { env0 with steps_taken := env0.steps_taken + 1 }
    .resolved ⟨invalidObs, PENALTY_FOR_INVALID, false, ⟨false, false⟩⟩
      (update_tracking env action_text action false false PENALTY_FOR_INVALID)
  else
    match lookupByName env0 action.tool with
    | none =>
      let env := { env0 with steps_taken := env0.steps_taken + 1 }
      .resolved ⟨"Unknown tool: " ++ jNameStr action.tool, PENALTY_FOR_INEFFECTIVE, false, ⟨true, false⟩⟩
        (update_tracking env action_text action true false PENALTY_FOR_INEFFECTIVE)
    | some tool =>
      match tool.validate_args action.args with
      | (false, error_msg) =>
        let env := { env0 with steps_taken := env0.steps_taken + 1 }
        .resolved ⟨"Invalid arguments for tool '" ++ jNameStr action.tool ++ "': " ++ error_msg,
            PENALTY_FOR_INEFFECTIVE, false, ⟨true, false⟩⟩
          (update_tracking env action_text action true false PENALTY_FOR_INEFFECTIVE)
      | (true, _) => .grouped (jNameStr action.tool) action.args tool action_text env0

/-- The successful-execution update (tool_env.py lines 77-99 and 217-242):
step the episode, score the result with the executing tool, record the
ToolCallRecord, compute done from the episode's own counter, update
tracking.  The executing tool is passed separately from the entry because
step_batch uses the group's first episode's instance for the whole group. -/
def processEntry (tool_name : String) (tool : Tool)
    (entry : Nat × J × Tool × String × ToolEnv) (result : String) : Nat × StepRes × ToolEnv :=
  let idx := entry.1
  let args := entry.2.1
  let action_text := entry.2.2.2.1
  let env0 := entry.2.2.2.2
  let env1 := { env0 with steps_taken := env0.steps_taken + 1 }
  let reward := tool.calculate_reward args result
  let env2 := { env1 with tool_history := env1.tool_history ++ [⟨tool_name, args, result⟩] }
  let done := decide (env2.steps_taken ≥ env2.max_turns)
  let env3 := update_tracking env2 action_text ⟨J.js tool_name, args⟩ true true reward
  (idx, ⟨result, reward, done, ⟨true, true⟩⟩, env3)

/-- The module-level step function (tool_env.py lines 17-113).  The counter
increment at line 28 reaches every branch; the three failure branches are
classify's resolved outcomes; on a valid call the tool executes, a runtime
fault being caught and scored rather than propagated (lines 100-113). -/
def step (env : ToolEnv) (action_text : String) : StepRes × ToolEnv :=
  match classify env action_text with
  | .resolved r e => (r, e)
  | .grouped tool_name args tool _ env0 =>
    match tool.execute args with
    | .ok result =>
      let p := processEntry tool_name tool (0, args, tool, action_text, env0) result
      (p.2.1, p.2.2)
    | .error e =>
      let env := { env0 with steps_taken := env0.steps_taken + 1 }
      (⟨"Error executing tool '" ++ tool_name ++ "': " ++ e, PENALTY_FOR_INEFFECTIVE, false, ⟨true, false⟩⟩,
       update_tracking env action_text ⟨J.js tool_name, args⟩ true false PENALTY_FOR_INEFFECTIVE)

/-! ## The batch dispatcher (step_batch, tool_env.py lines 116-243)

The imperative two-pass algorithm is rendered functionally.  The first pass
classifies every index in order; grouped indices are keyed by tool name in
first-appearance order (Python dicts preserve insertion order).  The second
pass executes each group once through batch_execute and pairs results with
entries positionally by zip, exactly as the source does — zip silently drops
the unpaired tail when a tool returns a list of the wrong length.  Filling
the preallocated results array slot results[idx] is rendered as a lookup of
idx in the concatenated per-group outputs, which is equivalent because every
index is written at most once.  An exception (the length assertion at line
127, or a batch_execute fault, which the source does not catch) is the error
case of the returned Except.
-/

/-- First-appearance deduplication, as insertion into a Python dict keeps
the first position of each key. -/
def firstDedup (l : List String) : List String :=
  l.foldl (fun acc a => if a ∈ acc then acc else acc ++ [a]) []

/-- The key of a grouped outcome. -/
def groupedName : P1 → Option String
  | .grouped n _ _ _ _ => some n
  | .resolved _ _ => none

/-- The tool-name keys of tool_groups, in insertion order. -/
def groupKeys (icls : List (Nat × P1)) : List String :=
  firstDedup (icls.filterMap (fun p => groupedName p.2))

/-- The entries of one group, in index order: (index, args, this episode's
tool instance, raw text, episode). -/
def groupEntries (n : String) (icls : List (Nat × P1)) : List (Nat × J × Tool × String × ToolEnv) :=
  icls.filterMap (fun p =>
    match p.2 with
    | .grouped n' args tool text env => if n' = n then some (p.1, args, tool, text, env) else none
    | .resolved _ _ => none)

/-- Execute one group (tool_env.py lines 204-242): the tool instance is the
first grouped episode's (line 209), batch_execute runs once on the ordered
argument list (line 213), and results are paired with entries by zip (line
217), the unpaired tail of either side being dropped. -/
def execGroup (n : String) (entries : List (Nat × J × Tool × String × ToolEnv)) :
    Except String (List (Nat × StepRes × ToolEnv)) :=
  match entries with
  | [] => .ok []
  | e0 :: _ =>
    let tool := e0.2.2.1
    match tool.batch_execute (entries.map (fun e => e.2.1)) with
    | .error msg => .error msg
    | .ok batch_results =>
      .ok ((entries.zip batch_results).map (fun p => processEntry n tool p.1 p.2))

/-- The second pass over the groups in key order; a batch_execute fault
aborts the whole call with the first faulting group's error. -/
def runGroups (icls : List (Nat × P1)) : List String → Except String (List (Nat × StepRes × ToolEnv))
  | [] => .ok []
  | n :: rest =>
    match execGroup n (groupEntries n icls) with
    | .error msg => .error msg
    | .ok upd =>
      match runGroups icls rest with
      | .error msg => .error msg
      | .ok upds => .ok (upd ++ upds)

/-- Lookup of an index in the concatenated second-pass outputs. -/
def lookupUpd (i : Nat) : List (Nat × StepRes × ToolEnv) → Option (StepRes × ToolEnv)
  | [] => none
  | (j, r, e) :: rest => if j = i then some (r, e) else lookupUpd i rest

/-- The indexed outcomes of the first pass, in input order. -/
def iclsOf (envs : List ToolEnv) (action_texts : List String) : List (Nat × P1) :=
  (List.range envs.length).zip ((envs.zip action_texts).map (fun p => classify p.1 p.2))

/-- The final content of the slot results[i]: a first-pass resolution, or the
second-pass output for index i, or the never-filled None. -/
def slotOf (upd : List (Nat × StepRes × ToolEnv)) (p : Nat × P1) : Option StepRes :=
  match p.2 with
  | .resolved r _ => some r
  | .grouped _ _ _ _ _ => (lookupUpd p.1 upd).map (fun q => q.1)

/-- The final state of episode i: updated by the first pass, or by the
second pass, or untouched when its pairing was dropped by zip. -/
def envOf (upd : List (Nat × StepRes × ToolEnv)) (p : Nat × P1) : ToolEnv :=
  match p.2 with
  | .resolved _ e => e
  | .grouped _ _ _ _ env =>
    match lookupUpd p.1 upd with
    | some q => q.2
    | none => env

/-- The module-level step_batch function (tool_env.py lines 116-243).  The
value is the results array (a slot is none exactly when it was never filled,
as the array is preallocated with None at line 134) paired with the final
episode states in input order; the error case is an uncaught exception. -/
def step_batch (envs : List ToolEnv) (action_texts : List String) :
    Except String (List (Option StepRes) × List ToolEnv) :=
  if envs.length = action_texts.length then
    match runGroups (iclsOf envs action_texts) (groupKeys (iclsOf envs action_texts)) with
    | .error msg => .error msg
    | .ok upd =>
      .ok ((iclsOf envs action_texts).map (slotOf upd),
           (iclsOf envs action_texts).map (envOf upd))
  else .error "Number of environments and actions must match"

/-! ## Characterizations of the transition functions -/

/-- One transition's bookkeeping effect: the step counter grows by one and
each of the four tracking sequences gains exactly one entry. -/
def StepInc (e e' : ToolEnv) : Prop :=
  e'.steps_taken = e.steps_taken + 1 ∧
  e'.rewards.length = e.rewards.length + 1 ∧
  e'._actions.length = e._actions.length + 1 ∧
  e'._actions_valid.length = e._actions_valid.length + 1 ∧
  e'._actions_effective.length = e._actions_effective.length + 1

/-- The effective-implies-valid tracking invariant: wherever the effective
sequence holds an action, the valid sequence holds one too. -/
def EffImpliesValid (e : ToolEnv) : Prop :=
  ∀ i, (e._actions_effective.getD i none).isSome = true →
    (e._actions_valid.getD i none).isSome = true

theorem update_tracking_stepInc (env : ToolEnv) (hist : List HistEntry) (resp : String)
    (a : ActionDict) (v eff : Bool) (rw : Rat) :
    StepInc env (update_tracking
      { env with steps_taken := env.steps_taken + 1, tool_history := hist } resp a v eff rw) := by
  simp [StepInc, update_tracking]

theorem classify_spec (env : ToolEnv) (t : String) :
    (∃ v r, classify env t =
        .resolved r (update_tracking { env with steps_taken := env.steps_taken + 1 } t
          (extract_tool_call t) v false r.reward) ∧
        r.done = false ∧ r.info = ⟨v, false⟩) ∨
    (∃ s args tool, extract_tool_call t = ⟨J.js s, args⟩ ∧
        isInvalidAction (extract_tool_call t) = false ∧
        env.tool_map s = some tool ∧ (tool.validate_args args).1 = true ∧
        classify env t = .grouped s args tool t env) := by
  unfold classify
  by_cases hinv : isInvalidAction (extract_tool_call t) = true
  · left
    exact ⟨false, ⟨invalidObs, PENALTY_FOR_INVALID, false, ⟨false, false⟩⟩,
      by simp [hinv], rfl, rfl⟩
  · simp only [Bool.not_eq_true] at hinv
    cases hl : lookupByName env (extract_tool_call t).tool with
    | none =>
      left
      exact ⟨true, ⟨"Unknown tool: " ++ jNameStr (extract_tool_call t).tool,
        PENALTY_FOR_INEFFECTIVE, false, ⟨true, false⟩⟩, by simp [hinv, hl], rfl, rfl⟩
    | some tool =>
      cases hv : tool.validate_args (extract_tool_call t).args with
      | mk fst snd =>
        cases fst with
        | false =>
          left
          exact ⟨true, ⟨"Invalid arguments for tool '" ++ jNameStr (extract_tool_call t).tool ++
            "': " ++ snd, PENALTY_FOR_INEFFECTIVE, false, ⟨true, false⟩⟩,
            by simp [hinv, hl, hv], rfl, rfl⟩
        | true =>
          right
          cases ha : (extract_tool_call t).tool with
          | js s =>
            rw [ha] at hl
            have hm : env.tool_map s = some tool := by simpa [lookupByName] using hl
            refine ⟨s, (extract_tool_call t).args, tool, ?_, hinv, hm, by rw [hv], ?_⟩
            · cases hx : extract_tool_call t
              simp_all
            · simp [hinv, ha, hl, hv, jNameStr]
          | null => simp [lookupByName, ha] at hl
          | jb b => simp [lookupByName, ha] at hl
          | jn q => simp [lookupByName, ha] at hl
          | ja xs => simp [lookupByName, ha] at hl
          | jo kvs => simp [lookupByName, ha] at hl

theorem isInvalidAction_iff (a : ActionDict) : isInvalidAction a = true ↔ a = INVALID_ACTION := by
  cases a with
  | mk tl ar =>
    constructor
    · intro h
      cases tl <;> cases ar <;> simp_all [isInvalidAction, INVALID_ACTION]
    · intro h
      rw [h]
      rfl

theorem step_of_resolved (env : ToolEnv) (t : String) (r : StepRes) (e : ToolEnv)
    (h : classify env t = .resolved r e) : step env t = (r, e) := by
  simp [step, h]

theorem step_of_grouped_ok (env : ToolEnv) (t : String) (n : String) (args : J) (tool : Tool)
    (res : String) (h : classify env t = .grouped n args tool t env)
    (he : tool.execute args = .ok res) :
    step env t = ((processEntry n tool (0, args, tool, t, env) res).2.1,
      (processEntry n tool (0, args, tool, t, env) res).2.2) := by
  simp [step, h, he]

theorem step_of_grouped_error (env : ToolEnv) (t : String) (n : String) (args : J) (tool : Tool)
    (msg : String) (h : classify env t = .grouped n args tool t env)
    (he : tool.execute args = .error msg) :
    step env t = (⟨"Error executing tool '" ++ n ++ "': " ++ msg, PENALTY_FOR_INEFFECTIVE, false,
        ⟨true, false⟩⟩,
      update_tracking { env with steps_taken := env.steps_taken + 1 } t ⟨J.js n, args⟩
        true false PENALTY_FOR_INEFFECTIVE) := by
  simp [step, h, he]

theorem processEntry_env (n : String) (tool tl : Tool) (i : Nat) (args : J) (text : String)
    (env : ToolEnv) (res : String) :
    (processEntry n tool (i, args, tl, text, env) res).2.2 =
      update_tracking { env with
          steps_taken := env.steps_taken + 1
          tool_history := env.tool_history ++ [⟨n, args, res⟩] }
        text ⟨J.js n, args⟩ true true (tool.calculate_reward args res) :=
  rfl

theorem processEntry_res (n : String) (tool tl : Tool) (i : Nat) (args : J) (text : String)
    (env : ToolEnv) (res : String) :
    (processEntry n tool (i, args, tl, text, env) res).1 = i ∧
    (processEntry n tool (i, args, tl, text, env) res).2.1 =
      ⟨res, tool.calculate_reward args res,
        decide (env.steps_taken + 1 ≥ env.max_turns), ⟨true, true⟩⟩ :=
  ⟨rfl, rfl⟩

theorem step_stepInc (env : ToolEnv) (t : String) :
    StepInc env (step env t).2 ∧ (step env t).2.max_turns = env.max_turns ∧
    (step env t).2.tools = env.tools := by
  rcases classify_spec env t with ⟨v, r, hc, _, _⟩ | ⟨s, args, tool, _, _, _, _, hc⟩
  · rw [step_of_resolved env t r _ hc]
    refine ⟨update_tracking_stepInc env env.tool_history t (extract_tool_call t) v false r.reward, ?_, ?_⟩ <;>
      simp [update_tracking]
  · cases he : tool.execute args with
    | ok res =>
      rw [step_of_grouped_ok env t s args tool res hc he, processEntry_env]
      exact ⟨update_tracking_stepInc env _ t ⟨J.js s, args⟩ true true _, by simp [update_tracking],
        by simp [update_tracking]⟩
    | error msg =>
      rw [step_of_grouped_error env t s args tool msg hc he]
      exact ⟨update_tracking_stepInc env env.tool_history t ⟨J.js s, args⟩ true false _,
        by simp [update_tracking], by simp [update_tracking]⟩

/-- C5: an invalid parse yields the fixed instructional observation with the
syntax penalty -0.1 and both info flags false; a parsed call naming a tool
absent from the episode's tool map yields "Unknown tool: name" with the
semantic penalty -0.05, info valid without effective; neither branch sets
done. -/
theorem step_invalid_and_unknown_branches (env : ToolEnv) (text : String) :
    PENALTY_FOR_INVALID = -(1 / 10 : Rat) ∧
    PENALTY_FOR_INEFFECTIVE = -(1 / 20 : Rat) ∧
    (extract_tool_call text = INVALID_ACTION →
      (step env text).1 = ⟨invalidObs, PENALTY_FOR_INVALID, false, ⟨false, false⟩⟩) ∧
    (∀ s args, extract_tool_call text = ⟨J.js s, args⟩ →
      isInvalidAction ⟨J.js s, args⟩ = false →
      env.tool_map s = none →
      (step env text).1 = ⟨"Unknown tool: " ++ s, PENALTY_FOR_INEFFECTIVE, false, ⟨true, false⟩⟩) := by
  refine ⟨rfl, rfl, ?_, ?_⟩
  · intro hx
    have hinv : isInvalidAction (extract_tool_call text) = true := by
      rw [hx]; rfl
    simp [step, classify, hinv]
  · intro s args hx hninv hmap
    simp [step, classify, hx, hninv, lookupByName, hmap, jNameStr]

theorem step_invalid_and_unknown_branches_witness :
    (step (ToolEnv.init [] 10) "no call here").1 =
      ⟨invalidObs, PENALTY_FOR_INVALID, false, ⟨false, false⟩⟩ ∧
    (step (ToolEnv.init [] 10) "<tool_call>\x7b\"name\": \"foo\"\x7d</tool_call>").1 =
      ⟨"Unknown tool: foo", PENALTY_FOR_INEFFECTIVE, false, ⟨true, false⟩⟩ :=
  ⟨(step_invalid_and_unknown_branches (ToolEnv.init [] 10) "no call here").2.2.1 rfl,
   (step_invalid_and_unknown_branches (ToolEnv.init [] 10)
      "<tool_call>\x7b\"name\": \"foo\"\x7d</tool_call>").2.2.2 "foo" (J.jo []) rfl rfl rfl⟩

/-- C9: a first tool-call block that decodes to an object whose "name" is
the string "invalid" with "arguments" absent or the empty mapping makes
extract_tool_call return the INVALID_ACTION sentinel, so step resolves it on
the format-error branch with reward -0.1 and action_is_valid false, never on
the unknown-tool branch with reward -0.05. -/
theorem invalid_named_call_is_syntax_fault (text raw : String) (kvs : List (String × J))
    (hb : findToolCallBlock text = some raw)
    (hj : json_loads (pyStrip raw) = some (J.jo kvs))
    (hn : jlookup "name" kvs = some (J.js "invalid"))
    (ha : jlookup "arguments" kvs = none ∨ jlookup "arguments" kvs = some (J.jo [])) :
    extract_tool_call text = INVALID_ACTION ∧
    ∀ env : ToolEnv,
      (step env text).1 = ⟨invalidObs, PENALTY_FOR_INVALID, false, ⟨false, false⟩⟩ := by
  have hx : extract_tool_call text = INVALID_ACTION := by
    rcases ha with ha | ha <;> simp [extract_tool_call, hb, hj, hn, ha, INVALID_ACTION]
  refine ⟨hx, fun env => ?_⟩
  have hinv : isInvalidAction (extract_tool_call text) = true := by
    rw [hx]; rfl
  simp [step, classify, hinv]

theorem invalid_named_call_is_syntax_fault_witness :
    extract_tool_call "<tool_call>\x7b\"name\": \"invalid\"\x7d</tool_call>" = INVALID_ACTION ∧
    ∀ env : ToolEnv,
      (step env "<tool_call>\x7b\"name\": \"invalid\"\x7d</tool_call>").1 =
        ⟨invalidObs, PENALTY_FOR_INVALID, false, ⟨false, false⟩⟩ :=
  invalid_named_call_is_syntax_fault _ "\x7b\"name\": \"invalid\"\x7d"
    [("name", J.js "invalid")] rfl rfl rfl (Or.inl rfl)

/-! ## Anatomy of a step_batch call -/

theorem tool_map_mem (env : ToolEnv) (s : String) (t : Tool) (h : env.tool_map s = some t) :
    t ∈ env.tools := by
  have H : ∀ (l : List Tool) (acc : Option Tool),
      l.foldl (fun acc t => if t.name = s then some t else acc) acc = some t →
      t ∈ l ∨ acc = some t := by
    intro l
    induction l with
    | nil => intro acc h; exact Or.inr h
    | cons x xs ih =>
      intro acc h
      simp only [List.foldl_cons] at h
      rcases ih _ h with h' | h'
      · exact Or.inl (List.mem_cons_of_mem x h')
      · by_cases hx : x.name = s
        · rw [if_pos hx] at h'
          obtain rfl : x = t := by injection h'
          exact Or.inl (List.mem_cons_self _ _)
        · rw [if_neg hx] at h'
          exact Or.inr h'
  rcases H env.tools none h with h' | h'
  · exact h'
  · cases h'

theorem mem_foldl_dedup (l : List String) (a : String) :
    ∀ acc : List String,
      (a ∈ l.foldl (fun acc x => if x ∈ acc then acc else acc ++ [x]) acc) ↔ (a ∈ acc ∨ a ∈ l) := by
  induction l with
  | nil => intro acc; simp
  | cons x xs ih =>
    intro acc
    simp only [List.foldl_cons]
    by_cases hx : x ∈ acc
    · rw [if_pos hx, ih]
      constructor
      · rintro (h | h)
        · exact Or.inl h
        · exact Or.inr (List.mem_cons_of_mem x h)
      · rintro (h | h)
        · exact Or.inl h
        · rcases List.mem_cons.mp h with rfl | h
          · exact Or.inl hx
          · exact Or.inr h
    · rw [if_neg hx, ih]
      simp only [List.mem_append, List.mem_cons, List.mem_singleton]
      tauto

theorem firstDedup_mem (l : List String) (a : String) : a ∈ firstDedup l ↔ a ∈ l := by
  rw [firstDedup, mem_foldl_dedup]
  simp

theorem lookupUpd_mem (i : Nat) (upd : List (Nat × StepRes × ToolEnv)) (q : StepRes × ToolEnv)
    (h : lookupUpd i upd = some q) : (i, q.1, q.2) ∈ upd := by
  induction upd with
  | nil => simp [lookupUpd] at h
  | cons x rest ih =>
    rcases x with ⟨j, r, e⟩
    simp only [lookupUpd] at h
    by_cases hj : j = i
    · rw [if_pos hj] at h
      cases h
      subst hj
      exact List.mem_cons_self _ _
    · rw [if_neg hj] at h
      exact List.mem_cons_of_mem _ (ih h)

theorem lookupUpd_isSome_of_mem (i : Nat) (upd : List (Nat × StepRes × ToolEnv))
    (r : StepRes) (e : ToolEnv) (h : (i, r, e) ∈ upd) : (lookupUpd i upd).isSome = true := by
  induction upd with
  | nil => simp at h
  | cons x rest ih =>
    rcases x with ⟨j, r', e'⟩
    simp only [lookupUpd]
    by_cases hj : j = i
    · simp [hj]
    · rw [if_neg hj]
      rcases List.mem_cons.mp h with heq | h'
      · cases heq
        cases hj rfl
      · exact ih h'

theorem iclsOf_length (envs : List ToolEnv) (texts : List String)
    (h : envs.length = texts.length) : (iclsOf envs texts).length = envs.length := by
  simp [iclsOf, h]

theorem iclsOf_getElem (envs : List ToolEnv) (texts : List String)
    (h : envs.length = texts.length) (i : Nat) (hi : i < envs.length)
    (hix : i < (iclsOf envs texts).length) (hit : i < texts.length) :
    (iclsOf envs texts)[i] = (i, classify envs[i] texts[i]) := by
  simp [iclsOf, List.getElem_zip, List.getElem_map, List.getElem_range]

theorem iclsOf_mem (envs : List ToolEnv) (texts : List String)
    (h : envs.length = texts.length) (i : Nat) (c : P1)
    (hm : (i, c) ∈ iclsOf envs texts) :
    ∃ (hi : i < envs.length) (hit : i < texts.length), c = classify envs[i] texts[i] := by
  rcases List.mem_iff_getElem.mp hm with ⟨j, hj, hje⟩
  have hl := iclsOf_length envs texts h
  have hj' : j < envs.length := by omega
  have hjt : j < texts.length := by omega
  rw [iclsOf_getElem envs texts h j hj' hj hjt] at hje
  have h1 : j = i := congrArg Prod.fst hje
  subst h1
  exact ⟨hj', hjt, (congrArg Prod.snd hje).symm⟩

theorem groupEntries_mem (n : String) (icls : List (Nat × P1))
    (x : Nat × J × Tool × String × ToolEnv) (h : x ∈ groupEntries n icls) :
    (x.1, P1.grouped n x.2.1 x.2.2.1 x.2.2.2.1 x.2.2.2.2) ∈ icls := by
  rcases List.mem_filterMap.mp h with ⟨p, hp, he⟩
  rcases p with ⟨j, c⟩
  cases c with
  | resolved r e => simp at he
  | grouped n' args tool text env =>
    by_cases hn : n' = n
    · subst hn
      simp only [if_pos rfl] at he
      cases he
      exact hp
    · simp [hn] at he

theorem groupEntries_complete (n : String) (icls : List (Nat × P1)) (i : Nat)
    (args : J) (tool : Tool) (text : String) (env : ToolEnv)
    (h : (i, P1.grouped n args tool text env) ∈ icls) :
    (i, args, tool, text, env) ∈ groupEntries n icls := by
  refine List.mem_filterMap.mpr ⟨(i, P1.grouped n args tool text env), h, ?_⟩
  simp

theorem processEntry_fst (n : String) (tool : Tool) (entry : Nat × J × Tool × String × ToolEnv)
    (res : String) : (processEntry n tool entry res).1 = entry.1 :=
  rfl

theorem execGroup_ok_mem (n : String) (entries : List (Nat × J × Tool × String × ToolEnv))
    (upd : List (Nat × StepRes × ToolEnv)) (h : execGroup n entries = .ok upd)
    (x : Nat × StepRes × ToolEnv) (hx : x ∈ upd) :
    ∃ tool entry res, entry ∈ entries ∧ x = processEntry n tool entry res := by
  cases entries with
  | nil =>
    simp only [execGroup] at h
    cases h
    simp at hx
  | cons e0 rest =>
    simp only [execGroup] at h
    cases hb : (e0.2.2.1).batch_execute ((e0 :: rest).map fun e => e.2.1) with
    | error msg => rw [hb] at h; cases h
    | ok rs =>
      rw [hb] at h
      cases h
      rcases List.mem_map.mp hx with ⟨pair, hpair, hpe⟩
      exact ⟨e0.2.2.1, pair.1, pair.2, (List.of_mem_zip hpair).1, hpe.symm⟩

theorem execGroup_complete (n : String) (e0 : Nat × J × Tool × String × ToolEnv)
    (rest : List (Nat × J × Tool × String × ToolEnv)) (u1 : List (Nat × StepRes × ToolEnv))
    (h : execGroup n (e0 :: rest) = .ok u1) (hlp : LenPreserving e0.2.2.1) :
    ∀ entry ∈ e0 :: rest, ∃ r e, (entry.1, r, e) ∈ u1 := by
  simp only [execGroup] at h
  cases hb : (e0.2.2.1).batch_execute ((e0 :: rest).map fun e => e.2.1) with
  | error msg => rw [hb] at h; cases h
  | ok rs =>
    rw [hb] at h
    cases h
    have hlen : rs.length = (e0 :: rest).length := by
      have hl := hlp _ _ hb
      rw [List.length_map] at hl
      exact hl
    intro entry hm
    rcases List.mem_iff_getElem.mp hm with ⟨p, hp, hpe⟩
    have hpr : p < rs.length := by omega
    have hpz : p < ((e0 :: rest).zip rs).length := by
      rw [List.length_zip, hlen]
      omega
    have hz : (entry, rs[p]) ∈ (e0 :: rest).zip rs := by
      have hzg : ((e0 :: rest).zip rs)[p] = (entry, rs[p]) := by
        rw [List.getElem_zip, hpe]
      rw [← hzg]
      exact List.getElem_mem hpz
    refine ⟨(processEntry n e0.2.2.1 entry rs[p]).2.1,
      (processEntry n e0.2.2.1 entry rs[p]).2.2, ?_⟩
    have hx := List.mem_map_of_mem (fun q => processEntry n e0.2.2.1 q.1 q.2) hz
    have hxx : (entry.1, (processEntry n e0.2.2.1 entry rs[p]).2.1,
        (processEntry n e0.2.2.1 entry rs[p]).2.2) = processEntry n e0.2.2.1 entry rs[p] := rfl
    rw [hxx]
    exact hx

theorem runGroups_ok_mem (icls : List (Nat × P1)) (keys : List String)
    (upd : List (Nat × StepRes × ToolEnv)) (h : runGroups icls keys = .ok upd)
    (x : Nat × StepRes × ToolEnv) (hx : x ∈ upd) :
    ∃ n tool entry res, n ∈ keys ∧ entry ∈ groupEntries n icls ∧
      x = processEntry n tool entry res := by
  induction keys generalizing upd with
  | nil =>
    simp only [runGroups] at h
    cases h
    simp at hx
  | cons n rest ih =>
    simp only [runGroups] at h
    cases hg : execGroup n (groupEntries n icls) with
    | error msg => rw [hg] at h; cases h
    | ok u1 =>
      rw [hg] at h
      cases hr : runGroups icls rest with
      | error msg => rw [hr] at h; cases h
      | ok u2 =>
        rw [hr] at h
        cases h
        rcases List.mem_append.mp hx with hx1 | hx2
        · rcases execGroup_ok_mem n _ u1 hg x hx1 with ⟨tool, entry, res, hm, he⟩
          exact ⟨n, tool, entry, res, List.mem_cons_self _ _, hm, he⟩
        · rcases ih u2 hr hx2 with ⟨n', tool, entry, res, hk, hm, he⟩
          exact ⟨n', tool, entry, res, List.mem_cons_of_mem _ hk, hm, he⟩

theorem runGroups_ok_key (icls : List (Nat × P1)) (keys : List String)
    (upd : List (Nat × StepRes × ToolEnv)) (h : runGroups icls keys = .ok upd)
    (n : String) (hn : n ∈ keys) :
    ∃ u1, execGroup n (groupEntries n icls) = .ok u1 ∧ ∀ x ∈ u1, x ∈ upd := by
  induction keys generalizing upd with
  | nil => simp at hn
  | cons m rest ih =>
    simp only [runGroups] at h
    cases hg : execGroup m (groupEntries m icls) with
    | error msg => rw [hg] at h; cases h
    | ok u1 =>
      rw [hg] at h
      cases hr : runGroups icls rest with
      | error msg => rw [hr] at h; cases h
      | ok u2 =>
        rw [hr] at h
        cases h
        rcases List.mem_cons.mp hn with rfl | hn'
        · exact ⟨u1, hg, fun x hx => List.mem_append.mpr (Or.inl hx)⟩
        · rcases ih u2 hr hn' with ⟨u1', hg', hsub⟩
          exact ⟨u1', hg', fun x hx => List.mem_append.mpr (Or.inr (hsub x hx))⟩

theorem step_batch_ok_parts (envs : List ToolEnv) (texts : List String)
    (slots : List (Option StepRes)) (envs' : List ToolEnv)
    (h : step_batch envs texts = .ok (slots, envs')) :
    envs.length = texts.length ∧
    ∃ upd, runGroups (iclsOf envs texts) (groupKeys (iclsOf envs texts)) = .ok upd ∧
      slots = (iclsOf envs texts).map (slotOf upd) ∧
      envs' = (iclsOf envs texts).map (envOf upd) := by
  unfold step_batch at h
  by_cases hl : envs.length = texts.length
  · rw [if_pos hl] at h
    cases hr : runGroups (iclsOf envs texts) (groupKeys (iclsOf envs texts)) with
    | error msg => rw [hr] at h; cases h
    | ok upd =>
      rw [hr] at h
      refine ⟨hl, upd, rfl, ?_, ?_⟩ <;>
        cases h <;> rfl
  · rw [if_neg hl] at h
    cases h

theorem step_batch_lengths (envs : List ToolEnv) (texts : List String)
    (slots : List (Option StepRes)) (envs' : List ToolEnv)
    (h : step_batch envs texts = .ok (slots, envs')) :
    envs.length = texts.length ∧ slots.length = envs.length ∧ envs'.length = envs.length := by
  rcases step_batch_ok_parts envs texts slots envs' h with ⟨hl, upd, _, hs, he⟩
  subst hs
  subst he
  simp [iclsOf_length envs texts hl, hl]

theorem step_batch_getElem (envs : List ToolEnv) (texts : List String)
    (slots : List (Option StepRes)) (envs' : List ToolEnv)
    (h : step_batch envs texts = .ok (slots, envs')) (i : Nat) (hi : i < envs.length)
    (hit : i < texts.length) (hs : i < slots.length) (he : i < envs'.length) :
    ∃ upd, runGroups (iclsOf envs texts) (groupKeys (iclsOf envs texts)) = .ok upd ∧
      slots[i] = slotOf upd (i, classify envs[i] texts[i]) ∧
      envs'[i] = envOf upd (i, classify envs[i] texts[i]) := by
  rcases step_batch_ok_parts envs texts slots envs' h with ⟨hl, upd, hrun, hsl, hen⟩
  refine ⟨upd, hrun, ?_, ?_⟩
  · subst hsl
    rw [List.getElem_map, iclsOf_getElem envs texts hl i hi _ hit]
  · subst hen
    rw [List.getElem_map, iclsOf_getElem envs texts hl i hi _ hit]

/-- Every completed transition updates an episode in the same stereotyped
way: counter up by one, possibly a history record, then one tracking append
whose effective flag implies its valid flag. -/
def TrackedUpd (e e' : ToolEnv) : Prop :=
  ∃ hist resp a v eff rw, (eff = true → v = true) ∧
    e' = update_tracking { e with
      steps_taken := e.steps_taken + 1
      tool_history := hist } resp a v eff rw

theorem trackedUpd_stepInc (e e' : ToolEnv) (h : TrackedUpd e e') : StepInc e e' := by
  rcases h with ⟨hist, resp, a, v, eff, rw, _, he⟩
  subst he
  simp [StepInc, update_tracking]

theorem trackedUpd_lists (e e' : ToolEnv) (h : TrackedUpd e e') :
    ∃ va ea, e'._actions_valid = e._actions_valid ++ [va] ∧
      e'._actions_effective = e._actions_effective ++ [ea] ∧
      (ea.isSome = true → va.isSome = true) := by
  rcases h with ⟨hist, resp, a, v, eff, rw, himp, he⟩
  subst he
  refine ⟨if v then some a else none, if eff then some a else none, rfl, rfl, ?_⟩
  cases eff with
  | false => simp
  | true => simp [himp rfl]

theorem step_trackedUpd (env : ToolEnv) (t : String) : TrackedUpd env (step env t).2 := by
  rcases classify_spec env t with ⟨v, r, hc, _, _⟩ | ⟨s, args, tool, _, _, _, _, hc⟩
  · rw [step_of_resolved env t r _ hc]
    exact ⟨env.tool_history, t, extract_tool_call t, v, false, r.reward, by simp, rfl⟩
  · cases he : tool.execute args with
    | ok res =>
      rw [step_of_grouped_ok env t s args tool res hc he, processEntry_env]
      exact ⟨env.tool_history ++ [⟨s, args, res⟩], t, ⟨J.js s, args⟩, true, true,
        tool.calculate_reward args res, fun _ => rfl, rfl⟩
    | error msg =>
      rw [step_of_grouped_error env t s args tool msg hc he]
      exact ⟨env.tool_history, t, ⟨J.js s, args⟩, true, false, PENALTY_FOR_INEFFECTIVE,
        by simp, rfl⟩

theorem groupKeys_mem (icls : List (Nat × P1)) (i : Nat) (s : String) (args : J)
    (tool : Tool) (text : String) (env : ToolEnv)
    (h : (i, P1.grouped s args tool text env) ∈ icls) : s ∈ groupKeys icls := by
  rw [groupKeys, firstDedup_mem]
  exact List.mem_filterMap.mpr ⟨(i, P1.grouped s args tool text env), h, rfl⟩

theorem upd_entry_shape (envs : List ToolEnv) (texts : List String)
    (hl : envs.length = texts.length) (upd : List (Nat × StepRes × ToolEnv))
    (hrun : runGroups (iclsOf envs texts) (groupKeys (iclsOf envs texts)) = .ok upd)
    (i : Nat) (hi : i < envs.length) (hit : i < texts.length)
    (s : String) (args : J) (tool : Tool)
    (hc : classify envs[i] texts[i] = .grouped s args tool texts[i] envs[i])
    (q : StepRes × ToolEnv) (hq : lookupUpd i upd = some q) :
    ∃ (tool' : Tool) (res : String),
      q.1 = ⟨res, tool'.calculate_reward args res,
        decide (envs[i].steps_taken + 1 ≥ envs[i].max_turns), ⟨true, true⟩⟩ ∧
      q.2 = update_tracking { envs[i] with
          steps_taken := envs[i].steps_taken + 1
          tool_history := envs[i].tool_history ++ [⟨s, args, res⟩] }
        texts[i] ⟨J.js s, args⟩ true true (tool'.calculate_reward args res) := by
  have hmem := lookupUpd_mem i upd q hq
  rcases runGroups_ok_mem _ _ upd hrun _ hmem with ⟨n, tool', entry, res, _, hge, heq⟩
  have hfst : entry.1 = i := by
    have := congrArg (fun x => x.1) heq
    simpa [processEntry_fst] using this.symm
  have hicls := groupEntries_mem n _ entry hge
  rw [hfst] at hicls
  rcases iclsOf_mem envs texts hl i _ hicls with ⟨hi', hit', hcc⟩
  rw [hc] at hcc
  have hn : n = s := ((P1.grouped.injEq _ _ _ _ _ _ _ _ _ _).mp hcc.symm).1.symm
  have hargs : entry.2.1 = args := ((P1.grouped.injEq _ _ _ _ _ _ _ _ _ _).mp hcc.symm).2.1.symm
  have htext : entry.2.2.2.1 = texts[i] :=
    ((P1.grouped.injEq _ _ _ _ _ _ _ _ _ _).mp hcc.symm).2.2.2.1.symm
  have henv : entry.2.2.2.2 = envs[i] :=
    ((P1.grouped.injEq _ _ _ _ _ _ _ _ _ _).mp hcc.symm).2.2.2.2.symm
  have hq1 : q.1 = (processEntry n tool' entry res).2.1 := congrArg (fun x => x.2.1) heq
  have hq2 : q.2 = (processEntry n tool' entry res).2.2 := congrArg (fun x => x.2.2) heq
  refine ⟨tool', res, ?_, ?_⟩
  · rw [hq1]
    show (⟨res, Tool.calculate_reward tool' entry.2.1 res,
      decide (entry.2.2.2.2.steps_taken + 1 ≥ entry.2.2.2.2.max_turns), ⟨true, true⟩⟩ : StepRes) = _
    rw [hargs, henv]
  · rw [hq2]
    show update_tracking { entry.2.2.2.2 with
        steps_taken := entry.2.2.2.2.steps_taken + 1
        tool_history := entry.2.2.2.2.tool_history ++ [⟨n, entry.2.1, res⟩] }
      entry.2.2.2.1 ⟨J.js n, entry.2.1⟩ true true (Tool.calculate_reward tool' entry.2.1 res) = _
    rw [hargs, henv, htext, hn]

theorem step_batch_filled (envs : List ToolEnv) (texts : List String)
    (hl : envs.length = texts.length) (upd : List (Nat × StepRes × ToolEnv))
    (hrun : runGroups (iclsOf envs texts) (groupKeys (iclsOf envs texts)) = .ok upd)
    (hcontract : ∀ e ∈ envs, ∀ tl ∈ e.tools, LenPreserving tl)
    (i : Nat) (hi : i < envs.length) (hit : i < texts.length)
    (s : String) (args : J) (tool : Tool)
    (hc : classify envs[i] texts[i] = .grouped s args tool texts[i] envs[i]) :
    (lookupUpd i upd).isSome = true := by
  have hix : i < (iclsOf envs texts).length := by
    rw [iclsOf_length envs texts hl]
    exact hi
  have hmem : (i, P1.grouped s args tool texts[i] envs[i]) ∈ iclsOf envs texts := by
    have hg := iclsOf_getElem envs texts hl i hi hix hit
    rw [← hc, ← hg]
    exact List.getElem_mem hix
  have hentry : (i, args, tool, texts[i], envs[i]) ∈ groupEntries s (iclsOf envs texts) :=
    groupEntries_complete s _ i args tool _ _ hmem
  have hkey : s ∈ groupKeys (iclsOf envs texts) :=
    groupKeys_mem _ i s args tool _ _ hmem
  rcases runGroups_ok_key _ _ upd hrun s hkey with ⟨u1, hg1, hsub⟩
  cases hgs : groupEntries s (iclsOf envs texts) with
  | nil =>
    rw [hgs] at hentry
    simp at hentry
  | cons e0 rest =>
    rw [hgs] at hg1 hentry
    have hlp : LenPreserving e0.2.2.1 := by
      have he0 : e0 ∈ groupEntries s (iclsOf envs texts) := by
        rw [hgs]
        exact List.mem_cons_self _ _
      have hicls0 := groupEntries_mem s _ e0 he0
      rcases iclsOf_mem envs texts hl e0.1 _ hicls0 with ⟨hj, hjt, hcc⟩
      rcases classify_spec envs[e0.1] texts[e0.1] with ⟨v, r, hc0, _, _⟩ |
        ⟨s', args', tool', _, _, hmap, _, hc0⟩
      · rw [hc0] at hcc
        cases hcc
      · rw [hc0] at hcc
        have hs : s' = s := ((P1.grouped.injEq _ _ _ _ _ _ _ _ _ _).mp hcc).1.symm
        have ht : tool' = e0.2.2.1 := ((P1.grouped.injEq _ _ _ _ _ _ _ _ _ _).mp hcc).2.2.1.symm
        rw [hs, ht] at hmap
        exact hcontract _ (List.getElem_mem hj) _ (tool_map_mem _ s _ hmap)
    rcases execGroup_complete s e0 rest u1 hg1 hlp _ hentry with ⟨r, e, hru⟩
    exact lookupUpd_isSome_of_mem i upd r e (hsub _ hru)

theorem step_batch_trackedUpd (envs : List ToolEnv) (texts : List String)
    (slots : List (Option StepRes)) (envs' : List ToolEnv)
    (h : step_batch envs texts = .ok (slots, envs'))
    (hcontract : ∀ e ∈ envs, ∀ tl ∈ e.tools, LenPreserving tl)
    (i : Nat) (hi : i < envs.length) (he : i < envs'.length) :
    TrackedUpd envs[i] envs'[i] := by
  rcases step_batch_lengths envs texts slots envs' h with ⟨hl, hsl, hel⟩
  have hit : i < texts.length := by omega
  have hs : i < slots.length := by omega
  rcases step_batch_getElem envs texts slots envs' h i hi hit hs he with ⟨upd, hrun, _, hen⟩
  rcases classify_spec envs[i] texts[i] with ⟨v, r, hc, _, _⟩ |
    ⟨s, args, tool, _, _, _, _, hc⟩
  · rw [hc] at hen
    simp only [envOf] at hen
    exact ⟨envs[i].tool_history, texts[i], extract_tool_call texts[i], v, false,
      r.reward, by simp, hen⟩
  · rw [hc] at hen
    simp only [envOf] at hen
    cases hq : lookupUpd i upd with
    | none =>
      have := step_batch_filled envs texts hl upd hrun hcontract i hi hit s args tool hc
      rw [hq] at this
      cases this
    | some q =>
      rw [hq] at hen
      have hen' : envs'[i] = q.2 := by rw [hen]
      rcases upd_entry_shape envs texts hl upd hrun i hi hit s args tool hc q hq with
        ⟨tool', res, _, hq2⟩
      rw [hq2] at hen'
      exact ⟨envs[i].tool_history ++ [⟨s, args, res⟩], texts[i], ⟨J.js s, args⟩,
        true, true, tool'.calculate_reward args res, fun _ => rfl, hen'⟩

/-! ## Reachability of episode states

One transition attempt on an episode is either a single step or
participation in a step_batch call that returned; the batched case carries
the positional contract of the spec for the tools involved (a tool that
returns a result list of the wrong length violates its contract and can
leave an episode untouched, see the truncation results below). -/

inductive Trans : ToolEnv → ToolEnv → Prop where
  | single : ∀ (e : ToolEnv) (t : String), Trans e (step e t).2
  | batched : ∀ (envs : List ToolEnv) (texts : List String) (slots : List (Option StepRes))
      (envs' : List ToolEnv) (i : Nat) (hi : i < envs.length) (hi' : i < envs'.length),
      step_batch envs texts = .ok (slots, envs') →
      (∀ e ∈ envs, ∀ tl ∈ e.tools, LenPreserving tl) →
      Trans envs[i] envs'[i]

inductive ReachN : Nat → ToolEnv → ToolEnv → Prop where
  | refl : ∀ e, ReachN 0 e e
  | succ : ∀ k e e' e'', ReachN k e e' → Trans e' e'' → ReachN (k + 1) e e''

theorem trans_trackedUpd (e e' : ToolEnv) (h : Trans e e') : TrackedUpd e e' := by
  cases h with
  | single e t => exact step_trackedUpd e t
  | batched envs texts slots envs' i hi hi' hok hcontract =>
    exact step_batch_trackedUpd envs texts slots envs' hok hcontract i hi hi'

/-- The tracking-length invariant of an episode. -/
def Consistent (e : ToolEnv) (k : Nat) : Prop :=
  e.steps_taken = k ∧ e.rewards.length = k ∧ e._actions.length = k ∧
  e._actions_valid.length = k ∧ e._actions_effective.length = k

theorem trackedUpd_consistent (e e' : ToolEnv) (k : Nat) (h : TrackedUpd e e')
    (hc : Consistent e k) : Consistent e' (k + 1) := by
  rcases trackedUpd_stepInc e e' h with ⟨h1, h2, h3, h4, h5⟩
  rcases hc with ⟨c1, c2, c3, c4, c5⟩
  exact ⟨by omega, by omega, by omega, by omega, by omega⟩

theorem trackedUpd_effImpliesValid (e e' : ToolEnv) (h : TrackedUpd e e')
    (hlen : e._actions_valid.length = e._actions_effective.length)
    (hev : EffImpliesValid e) : EffImpliesValid e' := by
  rcases trackedUpd_lists e e' h with ⟨va, ea, hv, hea, himp⟩
  intro i hi
  rw [hea] at hi
  rw [hv]
  rcases Nat.lt_trichotomy i e._actions_effective.length with hlt | heq | hgt
  · rw [List.getD_append _ _ _ _ hlt] at hi
    rw [List.getD_append _ _ _ _ (by omega)]
    exact hev i hi
  · subst heq
    have hea' : (e._actions_effective ++ [ea]).getD e._actions_effective.length none = ea := by
      simp [List.getD_eq_getElem?_getD, List.getElem?_append_right]
    have hva : (e._actions_valid ++ [va]).getD e._actions_effective.length none = va := by
      rw [← hlen]
      simp [List.getD_eq_getElem?_getD, List.getElem?_append_right]
    rw [hea'] at hi
    rw [hva]
    exact himp hi
  · have : (e._actions_effective ++ [ea]).getD i none = none := by
      simp only [List.getD_eq_getElem?_getD]
      rw [List.getElem?_eq_none]
      · simp
      · simp
        omega
    rw [this] at hi
    cases hi

theorem reach_inv (k : Nat) (e0 e : ToolEnv) (h : ReachN k e0 e) :
    ∀ j, Consistent e0 j → EffImpliesValid e0 →
      Consistent e (j + k) ∧ EffImpliesValid e := by
  induction h with
  | refl e =>
    intro j hc hev
    exact ⟨hc, hev⟩
  | succ k a b c hr ht ih =>
    intro j hc hev
    rcases ih j hc hev with ⟨ihc, ihe⟩
    have hu := trans_trackedUpd b c ht
    refine ⟨?_, ?_⟩
    · have := trackedUpd_consistent b c (j + k) hu ihc
      simpa [Nat.add_assoc] using this
    · exact trackedUpd_effImpliesValid b c hu (by rcases ihc with ⟨_, _, _, c4, c5⟩; omega) ihe

theorem init_consistent (tools : List Tool) (max_turns : Nat) :
    Consistent (ToolEnv.init tools max_turns) 0 ∧ EffImpliesValid (ToolEnv.init tools max_turns) := by
  refine ⟨⟨rfl, rfl, rfl, rfl, rfl⟩, ?_⟩
  intro i hi
  simp [ToolEnv.init, List.getD] at hi

/-- C2: after any sequence of k completed transition attempts (single steps
or participations in returning batched calls against contract-abiding
tools), a freshly initialised episode has steps_taken = k and each of
rewards, _actions, _actions_valid and _actions_effective holds exactly k
entries: every transition increments the counter once and appends one entry
to each tracking sequence. -/
theorem tracking_lengths_after_k (tools : List Tool) (max_turns : Nat) (k : Nat) (e : ToolEnv)
    (h : ReachN k (ToolEnv.init tools max_turns) e) :
    e.steps_taken = k ∧ e.rewards.length = k ∧ e._actions.length = k ∧
    e._actions_valid.length = k ∧ e._actions_effective.length = k := by
  rcases init_consistent tools max_turns with ⟨hc, hev⟩
  have := (reach_inv k _ e h 0 hc hev).1
  simpa [Consistent] using this

theorem tracking_lengths_after_k_witness :
    (step (ToolEnv.init [] 5) "x").2.steps_taken = 1 ∧
    (step (ToolEnv.init [] 5) "x").2.rewards.length = 1 ∧
    (step (ToolEnv.init [] 5) "x").2._actions.length = 1 ∧
    (step (ToolEnv.init [] 5) "x").2._actions_valid.length = 1 ∧
    (step (ToolEnv.init [] 5) "x").2._actions_effective.length = 1 :=
  tracking_lengths_after_k [] 5 1 _
    (ReachN.succ 0 _ _ _ (ReachN.refl _) (Trans.single _ "x"))

/-- C3: in every episode reachable by any sequence of step and step_batch
transitions, a non-null entry of _actions_effective at an index forces a
non-null entry of _actions_valid at that index; the reverse implication is
not a law, witnessed by a reachable episode holding a valid slot whose
effective slot is null.  No transition records effective without valid. -/
theorem effective_implies_valid_reachable (tools : List Tool) (max_turns k : Nat) (e : ToolEnv)
    (h : ReachN k (ToolEnv.init tools max_turns) e) :
    (∀ i, (e._actions_effective.getD i none).isSome = true →
      (e._actions_valid.getD i none).isSome = true) ∧
    ∃ (e' : ToolEnv) (k' : Nat), ReachN k' (ToolEnv.init [] 1) e' ∧
      (e'._actions_valid.getD 0 none).isSome = true ∧
      (e'._actions_effective.getD 0 none).isSome = false := by
  rcases init_consistent tools max_turns with ⟨hc, hev⟩
  refine ⟨(reach_inv k _ e h 0 hc hev).2, ?_⟩
  refine ⟨(step (ToolEnv.init [] 1) "<tool_call>\x7b\"name\": \"foo\"\x7d</tool_call>").2, 1,
    ReachN.succ 0 _ _ _ (ReachN.refl _) (Trans.single _ _), ?_, ?_⟩ <;> rfl

theorem effective_implies_valid_reachable_witness :
    (∀ i, (((ToolEnv.init [] 1)._actions_effective.getD i none).isSome = true) →
      (((ToolEnv.init [] 1)._actions_valid.getD i none).isSome = true)) ∧
    ∃ (e' : ToolEnv) (k' : Nat), ReachN k' (ToolEnv.init [] 1) e' ∧
      (e'._actions_valid.getD 0 none).isSome = true ∧
      (e'._actions_effective.getD 0 none).isSome = false :=
  effective_implies_valid_reachable [] 1 0 _ (ReachN.refl _)

/-- C4: a transition's done flag is true exactly when the transition is on
the successful-execution path (action_is_effective) and the episode's
counter has reached max_turns after the increment; the invalid, unknown,
bad-argument and runtime-fault resolutions return done = false even past
the threshold.  Stated for step and for every filled slot of step_batch. -/
theorem done_flag_spec :
    (∀ (env : ToolEnv) (text : String),
      (step env text).1.done =
        ((step env text).1.info.action_is_effective &&
         decide ((step env text).2.steps_taken ≥ (step env text).2.max_turns)) ∧
      (step env text).2.steps_taken = env.steps_taken + 1 ∧
      (step env text).2.max_turns = env.max_turns) ∧
    (∀ (envs : List ToolEnv) (texts : List String) (slots : List (Option StepRes))
       (envs' : List ToolEnv), step_batch envs texts = .ok (slots, envs') →
      ∀ (i : Nat) (hi : i < envs.length) (hs : i < slots.length) (he : i < envs'.length)
        (r : StepRes), slots[i] = some r →
        r.done = (r.info.action_is_effective &&
          decide (envs'[i].steps_taken ≥ envs'[i].max_turns))) := by
  constructor
  · intro env text
    rcases classify_spec env text with ⟨v, r, hc, hd, hinfo⟩ | ⟨s, args, tool, _, _, _, _, hc⟩
    · rw [step_of_resolved _ _ _ _ hc]
      refine ⟨?_, ?_, ?_⟩
      · simp [hd, hinfo]
      · simp [update_tracking]
      · simp [update_tracking]
    · cases he : tool.execute args with
      | ok res =>
        rw [step_of_grouped_ok _ _ _ _ _ _ hc he, processEntry_env, (processEntry_res s tool tool 0 args text env res).2]
        refine ⟨?_, by simp [update_tracking], by simp [update_tracking]⟩
        simp [update_tracking]
      | error msg =>
        rw [step_of_grouped_error _ _ _ _ _ _ hc he]
        exact ⟨rfl, by simp [update_tracking], by simp [update_tracking]⟩
  · intro envs texts slots envs' h i hi hs he r hr
    rcases step_batch_lengths envs texts slots envs' h with ⟨hl, _, _⟩
    have hit : i < texts.length := by omega
    rcases step_batch_getElem envs texts slots envs' h i hi hit hs he with ⟨upd, hrun, hsl, hen⟩
    rcases classify_spec envs[i] texts[i] with ⟨v, r0, hc, hd, hinfo⟩ |
      ⟨s, args, tool, _, _, _, _, hc⟩
    · rw [hc] at hsl hen
      simp only [slotOf] at hsl
      rw [hr] at hsl
      cases hsl
      simp [hd, hinfo]
    · rw [hc] at hsl hen
      simp only [slotOf, envOf] at hsl hen
      cases hq : lookupUpd i upd with
      | none =>
        rw [hq] at hsl
        rw [hr] at hsl
        cases hsl
      | some q =>
        rw [hq] at hsl hen
        have hq1 : some q.1 = some r := by rw [← hr, hsl]; rfl
        have hqr : q.1 = r := by injection hq1
        have hen' : envs'[i] = q.2 := by rw [hen]
        rcases upd_entry_shape envs texts hl upd hrun i hi hit s args tool hc q hq with
          ⟨tool', res, hs1, hs2⟩
        rw [← hqr, hs1, hen', hs2]
        simp [update_tracking]

theorem done_flag_spec_witness :
    (step (ToolEnv.init [] 1) "x").1.done =
      ((step (ToolEnv.init [] 1) "x").1.info.action_is_effective &&
       decide ((step (ToolEnv.init [] 1) "x").2.steps_taken ≥
         (step (ToolEnv.init [] 1) "x").2.max_turns)) ∧
    (⟨invalidObs, PENALTY_FOR_INVALID, false, ⟨false, false⟩⟩ : StepRes).done =
      ((⟨invalidObs, PENALTY_FOR_INVALID, false, ⟨false, false⟩⟩ : StepRes).info.action_is_effective &&
       decide ((update_tracking { ToolEnv.init [] 1 with steps_taken := 1 } "x" INVALID_ACTION
          false false PENALTY_FOR_INVALID).steps_taken ≥
         (update_tracking { ToolEnv.init [] 1 with steps_taken := 1 } "x" INVALID_ACTION
          false false PENALTY_FOR_INVALID).max_turns)) :=
  ⟨(done_flag_spec.1 (ToolEnv.init [] 1) "x").1,
   done_flag_spec.2 [ToolEnv.init [] 1] ["x"]
     [some ⟨invalidObs, PENALTY_FOR_INVALID, false, ⟨false, false⟩⟩]
     [update_tracking { ToolEnv.init [] 1 with steps_taken := 1 } "x" INVALID_ACTION
        false false PENALTY_FOR_INVALID]
     rfl 0 (by decide) (by decide) (by decide) _ rfl⟩

/-- A tool whose batched execution violates the positional contract by
returning an empty result list. -/
def shortTool : Tool :=
  { name := "sh", validate_args := fun _ => (true, ""), execute := fun _ => .ok "r",
    batch_execute := fun _ => .ok [], calculate_reward := fun _ _ => 0 }

def shortText : String := "<tool_call>\x7b\"name\": \"sh\"\x7d</tool_call>"

/-- C6 counterexample: a batch whose tool returns a result list shorter than
its argument list is not surfaced as a hard failure; step_batch returns
normally, with the unpaired slot still None and the episode untouched. -/
theorem batch_short_results_not_a_failure :
    step_batch [ToolEnv.init [shortTool] 2] [shortText] =
      .ok ([none], [ToolEnv.init [shortTool] 2]) := rfl

/-- C6 (amended): mismatched input lengths fail loudly through the
assertion; a batch result list of the wrong length is NOT surfaced as a
failure — zip silently drops the unpaired tail — but no episode state or
result slot is ever updated from a truncated pairing: an unfilled slot's
episode is returned exactly as it was passed in. -/
theorem batch_contract_violations (envs : List ToolEnv) (texts : List String) :
    (envs.length ≠ texts.length →
      step_batch envs texts = .error "Number of environments and actions must match") ∧
    (∀ slots envs', step_batch envs texts = .ok (slots, envs') →
      ∀ (i : Nat) (hi : i < envs.length) (hs : i < slots.length) (he : i < envs'.length),
        slots[i] = none → envs'[i] = envs[i]) := by
  constructor
  · intro hne
    unfold step_batch
    rw [if_neg hne]
  · intro slots envs' h i hi hs he hnone
    rcases step_batch_lengths envs texts slots envs' h with ⟨hl, _, _⟩
    have hit : i < texts.length := by omega
    rcases step_batch_getElem envs texts slots envs' h i hi hit hs he with ⟨upd, hrun, hsl, hen⟩
    rcases classify_spec envs[i] texts[i] with ⟨v, r0, hc, _, _⟩ |
      ⟨s, args, tool, _, _, _, _, hc⟩
    · rw [hc] at hsl
      simp only [slotOf] at hsl
      rw [hnone] at hsl
      cases hsl
    · rw [hc] at hsl hen
      simp only [slotOf, envOf] at hsl hen
      cases hq : lookupUpd i upd with
      | none =>
        rw [hq] at hen
        exact hen
      | some q =>
        rw [hq] at hsl
        rw [hnone] at hsl
        cases hsl

theorem batch_contract_violations_witness :
    step_batch ([] : List ToolEnv) ["x"] = .error "Number of environments and actions must match" ∧
    ([ToolEnv.init [shortTool] 2].get ⟨0, by decide⟩ : ToolEnv) = ToolEnv.init [shortTool] 2 :=
  ⟨(batch_contract_violations [] ["x"]).1 (by decide),
   (batch_contract_violations [ToolEnv.init [shortTool] 2] [shortText]).2 [none]
     [ToolEnv.init [shortTool] 2] rfl 0 (by decide) (by decide) (by decide) rfl⟩

/-! ## Batching valid same-tool calls refines stepping them one by one -/

instance : Inhabited ToolEnv := ⟨⟨[], 0, [], [], 0, [], [], []⟩⟩

/-- The entry a grouped first-pass outcome contributes to its group (junk on
a resolved outcome, which the lemmas below exclude). -/
def entryOfP (p : Nat × P1) : Nat × J × Tool × String × ToolEnv :=
  match p.2 with
  | .grouped _ args tool text env => (p.1, args, tool, text, env)
  | .resolved _ _ => (p.1, J.null, default, "", default)

theorem defaultBatchExecute_ok (t : Tool) (l : List J)
    (h : ∀ a ∈ l, ∃ r, t.execute a = .ok r) :
    ∃ rs, defaultBatchExecute t l = .ok rs ∧ rs.length = l.length ∧
      ∀ (i : Nat) (hi : i < l.length) (hr : i < rs.length),
        t.execute l[i] = .ok rs[i] := by
  induction l with
  | nil =>
    refine ⟨[], rfl, rfl, ?_⟩
    intro i hi
    simp at hi
  | cons a rest ih =>
    rcases h a (List.mem_cons_self _ _) with ⟨r, hr⟩
    rcases ih (fun b hb => h b (List.mem_cons_of_mem _ hb)) with ⟨rs, hrs, hlen, hptw⟩
    refine ⟨r :: rs, ?_, by simp [hlen], ?_⟩
    · simp [defaultBatchExecute, hr, hrs]
    · intro i hi hir
      cases i with
      | zero => simpa using hr
      | succ j =>
        simpa using hptw j (by simpa using hi) (by simpa using hir)

theorem foldl_dedup_const (a : String) :
    ∀ (l : List String), (∀ x ∈ l, x = a) → ∀ acc, a ∈ acc →
      l.foldl (fun acc x => if x ∈ acc then acc else acc ++ [x]) acc = acc := by
  intro l
  induction l with
  | nil => intro _ acc _; rfl
  | cons x rest ih =>
    intro hall acc hacc
    have hx : x = a := hall x (List.mem_cons_self _ _)
    subst hx
    simp only [List.foldl_cons, if_pos hacc]
    exact ih (fun y hy => hall y (List.mem_cons_of_mem _ hy)) acc hacc

theorem firstDedup_const (a : String) (l : List String) (hne : l ≠ [])
    (hall : ∀ x ∈ l, x = a) : firstDedup l = [a] := by
  cases l with
  | nil => cases hne rfl
  | cons x rest =>
    have hx : x = a := hall x (List.mem_cons_self _ _)
    rw [hx]
    rw [firstDedup]
    simp only [List.foldl_cons]
    rw [if_neg (by simp)]
    simp only [List.nil_append]
    exact foldl_dedup_const a rest (fun y hy => hall y (List.mem_cons_of_mem _ hy)) [a]
      (List.mem_singleton.mpr rfl)

theorem filterMap_eq_map_of_all {α β : Type} (l : List α) (f : α → Option β) (g : α → β)
    (h : ∀ x ∈ l, f x = some (g x)) : l.filterMap f = l.map g := by
  induction l with
  | nil => rfl
  | cons x rest ih =>
    rw [List.filterMap_cons, h x (List.mem_cons_self _ _),
      ih (fun y hy => h y (List.mem_cons_of_mem _ hy)), List.map_cons]

theorem lookupUpd_cons (i : Nat) (x : Nat × StepRes × ToolEnv)
    (rest : List (Nat × StepRes × ToolEnv)) :
    lookupUpd i (x :: rest) = if x.1 = i then some (x.2.1, x.2.2) else lookupUpd i rest :=
  rfl

theorem lookupUpd_of_increasing :
    ∀ (upd : List (Nat × StepRes × ToolEnv)) (base : Nat),
      (∀ (j : Nat) (hj : j < upd.length), upd[j].1 = base + j) →
      ∀ (i : Nat), base ≤ i → ∀ (hu : i - base < upd.length),
        lookupUpd i upd = some (upd[i - base].2) := by
  intro upd
  induction upd with
  | nil =>
    intro base _ i _ hu
    simp at hu
  | cons x rest ih =>
    intro base hmono i hbase hu
    have hx : x.1 = base := by
      have := hmono 0 (by simp)
      simpa using this
    by_cases hib : i = base
    · subst hib
      rw [lookupUpd_cons, if_pos hx]
      have h0 : i - i = 0 := Nat.sub_self i
      congr 1
      simp only [h0, List.getElem_cons_zero]
    · have hlt : base < i := by omega
      rw [lookupUpd_cons, if_neg (by omega)]
      have hrest : ∀ (j : Nat) (hj : j < rest.length), rest[j].1 = (base + 1) + j := by
        intro j hj
        have h2 := hmono (j + 1) (by simp; omega)
        rw [List.getElem_cons_succ] at h2
        omega
      have hu' : i - (base + 1) < rest.length := by
        simp at hu
        omega
      rw [ih (base + 1) hrest i (by omega) hu']
      congr 1
      have hidx : i - base = (i - (base + 1)) + 1 := by omega
      simp only [hidx, List.getElem_cons_succ]

theorem execGroup_all_same (n : String) (t : Tool)
    (entries : List (Nat × J × Tool × String × ToolEnv))
    (hbatch : t.batch_execute = defaultBatchExecute t)
    (htool : ∀ e ∈ entries, e.2.2.1 = t)
    (rs : List String) (hrs : defaultBatchExecute t (entries.map (fun e => e.2.1)) = .ok rs) :
    execGroup n entries = .ok ((entries.zip rs).map (fun p => processEntry n t p.1 p.2)) := by
  cases entries with
  | nil => simp [execGroup]
  | cons e0 rest =>
    have ht0 : e0.2.2.1 = t := htool e0 (List.mem_cons_self _ _)
    simp only [execGroup]
    rw [ht0, hbatch, hrs]

/-- C1 (amended): when every text is a valid call of the same known tool
with schema-valid arguments, all episodes resolve the name to the same tool
instance, the tool batches by the spec's default (the single executions in
order) and every execution completes without fault, then step_batch returns
normally and is, slot by slot and episode by episode, exactly step applied
index-wise: same observation, reward, done flag, info and final episode
state, index-aligned with the inputs. -/
theorem step_batch_refines_step (envs : List ToolEnv) (texts : List String)
    (n : String) (t : Tool)
    (hlen : envs.length = texts.length)
    (hbatch : t.batch_execute = defaultBatchExecute t)
    (hcall : ∀ (i : Nat) (hi : i < envs.length) (hit : i < texts.length),
      ∃ args, classify envs[i] texts[i] = .grouped n args t texts[i] envs[i] ∧
        ∃ res, t.execute args = .ok res) :
    ∃ slots envs', step_batch envs texts = .ok (slots, envs') ∧
      slots.length = envs.length ∧ envs'.length = envs.length ∧
      ∀ (i : Nat) (hi : i < envs.length) (hit : i < texts.length)
        (hs : i < slots.length) (he : i < envs'.length),
        slots[i] = some (step envs[i] texts[i]).1 ∧
        envs'[i] = (step envs[i] texts[i]).2 := by
  have hicl : (iclsOf envs texts).length = envs.length := iclsOf_length envs texts hlen
  by_cases hN : envs.length = 0
  · have he : envs = [] := List.length_eq_zero.mp hN
    have ht : texts = [] := List.length_eq_zero.mp (by omega)
    subst he
    subst ht
    refine ⟨[], [], rfl, rfl, rfl, ?_⟩
    intro i hi
    simp at hi
  · -- every first-pass outcome is a grouped call of tool t under key n
    have hgn : ∀ p ∈ iclsOf envs texts, groupedName p.2 = some n := by
      intro p hp
      rcases p with ⟨i, c⟩
      rcases iclsOf_mem envs texts hlen i c hp with ⟨hi, hit, hc⟩
      rcases hcall i hi hit with ⟨args, hcl, _⟩
      rw [hc, hcl]
      rfl
    have hkeys : groupKeys (iclsOf envs texts) = [n] := by
      rw [groupKeys, filterMap_eq_map_of_all _ _ (fun _ => n) hgn]
      apply firstDedup_const
      · intro hmape
        have hql := congrArg List.length hmape
        rw [List.length_map, hicl] at hql
        simp at hql
        exact hN (by rw [hql]; rfl)
      · intro x hx
        rcases List.mem_map.mp hx with ⟨_, _, hxe⟩
        exact hxe.symm
    have hge : groupEntries n (iclsOf envs texts) = (iclsOf envs texts).map entryOfP := by
      apply filterMap_eq_map_of_all
      intro p hp
      rcases p with ⟨i, c⟩
      rcases iclsOf_mem envs texts hlen i c hp with ⟨hi, hit, hc⟩
      rcases hcall i hi hit with ⟨args, hcl, _⟩
      rw [hc, hcl]
      simp [entryOfP]
    have htool : ∀ e ∈ (iclsOf envs texts).map entryOfP, e.2.2.1 = t := by
      intro e he
      rcases List.mem_map.mp he with ⟨p, hp, hpe⟩
      rcases p with ⟨i, c⟩
      rcases iclsOf_mem envs texts hlen i c hp with ⟨hi, hit, hc⟩
      rcases hcall i hi hit with ⟨args, hcl, _⟩
      rw [← hpe, hc, hcl]
      rfl
    have hallargs : ∀ a ∈ ((iclsOf envs texts).map entryOfP).map (fun e => e.2.1),
        ∃ r, t.execute a = .ok r := by
      intro a ha
      rcases List.mem_map.mp ha with ⟨e, he, hea⟩
      rcases List.mem_map.mp he with ⟨p, hp, hpe⟩
      rcases p with ⟨i, c⟩
      rcases iclsOf_mem envs texts hlen i c hp with ⟨hi, hit, hc⟩
      rcases hcall i hi hit with ⟨args, hcl, res, hres⟩
      rw [← hea, ← hpe, hc, hcl]
      exact ⟨res, hres⟩
    rcases defaultBatchExecute_ok t _ hallargs with ⟨rs, hrs, hrslen, hptw⟩
    have hentlen : ((iclsOf envs texts).map entryOfP).length = envs.length := by
      rw [List.length_map, hicl]
    have hrslen' : rs.length = envs.length := by
      rw [hrslen, List.length_map, hentlen]
    have hexec := execGroup_all_same n t ((iclsOf envs texts).map entryOfP) hbatch htool rs hrs
    have hziplen : (((iclsOf envs texts).map entryOfP).zip rs).length = envs.length := by
      rw [List.length_zip, hentlen, hrslen']
      omega
    have hrun : runGroups (iclsOf envs texts) (groupKeys (iclsOf envs texts)) =
        .ok ((((iclsOf envs texts).map entryOfP).zip rs).map (fun p => processEntry n t p.1 p.2)) := by
      rw [hkeys]
      simp only [runGroups]
      rw [hge, hexec]
      simp
    have hsb : step_batch envs texts =
        .ok ((iclsOf envs texts).map (slotOf ((((iclsOf envs texts).map entryOfP).zip rs).map
               (fun p => processEntry n t p.1 p.2))),
             (iclsOf envs texts).map (envOf ((((iclsOf envs texts).map entryOfP).zip rs).map
               (fun p => processEntry n t p.1 p.2)))) := by
      unfold step_batch
      rw [if_pos hlen, hrun]
    -- the per-index content of the second-pass output
    have hentget : ∀ (j : Nat) (hj : j < envs.length) (hjt : j < texts.length)
        (hje : j < ((iclsOf envs texts).map entryOfP).length),
        ∃ args, classify envs[j] texts[j] =
            .grouped n args t texts[j] envs[j] ∧
          ((iclsOf envs texts).map entryOfP)[j] = (j, args, t, texts[j], envs[j]) ∧
          t.execute args = .ok rs[j] := by
      intro j hj hjt hje
      rcases hcall j hj hjt with ⟨args, hcl, _⟩
      have hjx : j < (iclsOf envs texts).length := by omega
      have hget : ((iclsOf envs texts).map entryOfP)[j] =
          (j, args, t, texts[j], envs[j]) := by
        rw [List.getElem_map, iclsOf_getElem envs texts hlen j hj hjx hjt, hcl]
        rfl
      refine ⟨args, hcl, hget, ?_⟩
      have hja : j < (((iclsOf envs texts).map entryOfP).map (fun e => e.2.1)).length := by
        rw [List.length_map]
        omega
      have := hptw j (by omega) (by omega)
      rw [List.getElem_map, hget] at this
      exact this
    have hupd : ∀ (j : Nat)
        (hj : j < ((((iclsOf envs texts).map entryOfP).zip rs).map
          (fun p => processEntry n t p.1 p.2)).length),
        ∀ (hj' : j < envs.length) (hjt : j < texts.length),
        ∃ args, classify envs[j] texts[j] =
            .grouped n args t texts[j] envs[j] ∧
          ((((iclsOf envs texts).map entryOfP).zip rs).map (fun p => processEntry n t p.1 p.2))[j] =
            processEntry n t (j, args, t, texts[j], envs[j]) rs[j] ∧
          t.execute args = .ok rs[j] := by
      intro j hj hj' hjt
      rcases hentget j hj' hjt (by omega) with ⟨args, hcl, hget, hexe⟩
      refine ⟨args, hcl, ?_, hexe⟩
      rw [List.getElem_map, List.getElem_zip, hget]
    refine ⟨_, _, hsb, by rw [List.length_map, hicl], by rw [List.length_map, hicl], ?_⟩
    intro i hi hit hs he
    have hix : i < (iclsOf envs texts).length := by omega
    have hiu : i < ((((iclsOf envs texts).map entryOfP).zip rs).map
        (fun p => processEntry n t p.1 p.2)).length := by
      rw [List.length_map, hziplen]
      exact hi
    rcases hupd i hiu hi hit with ⟨args, hcl, hgetu, hexe⟩
    have hmono : ∀ (j : Nat) (hj : j < ((((iclsOf envs texts).map entryOfP).zip rs).map
        (fun p => processEntry n t p.1 p.2)).length),
        (((((iclsOf envs texts).map entryOfP).zip rs).map
          (fun p => processEntry n t p.1 p.2))[j]).1 = 0 + j := by
      intro j hj
      have hj' : j < envs.length := by
        rw [List.length_map, hziplen] at hj
        exact hj
      have hjt : j < texts.length := by omega
      rcases hupd j hj hj' hjt with ⟨argsj, _, hgetj, _⟩
      rw [hgetj, processEntry_fst]
      omega
    have hlook0 := lookupUpd_of_increasing _ 0 hmono i (Nat.zero_le i)
      (by rw [Nat.sub_zero]; exact hiu)
    have hlook : lookupUpd i ((((iclsOf envs texts).map entryOfP).zip rs).map
        (fun p => processEntry n t p.1 p.2)) =
        some ((processEntry n t (i, args, t, texts[i], envs[i]) rs[i]).2) :=
      hlook0.trans (congrArg (fun q => some q.2) hgetu)
    -- the step on episode i takes the successful-execution branch with the same result
    have hstep := step_of_grouped_ok envs[i] texts[i] n args t rs[i] hcl hexe
    constructor
    · rw [List.getElem_map, iclsOf_getElem envs texts hlen i hi hix hit, hcl]
      simp only [slotOf]
      rw [hlook, hstep]
      rfl
    · rw [List.getElem_map, iclsOf_getElem envs texts hlen i hi hix hit, hcl]
      simp only [envOf]
      rw [hlook, hstep]
      rfl

def c1ToolBase : Tool :=
  { name := "t1", validate_args := fun _ => (true, ""), execute := fun _ => .ok "out",
    batch_execute := fun _ => .ok [], calculate_reward := fun _ _ => 1 }

/-- A concrete tool whose batched execution is the spec default. -/
def c1Tool : Tool := { c1ToolBase with batch_execute := defaultBatchExecute c1ToolBase }

def c1Text : String := "<tool_call>\x7b\"name\": \"t1\"\x7d</tool_call>"

theorem c1Tool_batch : c1Tool.batch_execute = defaultBatchExecute c1Tool := by
  funext l
  show defaultBatchExecute c1ToolBase l = defaultBatchExecute c1Tool l
  induction l with
  | nil => rfl
  | cons a rest ih =>
    simp only [defaultBatchExecute]
    rw [ih]
    rfl

theorem step_batch_refines_step_witness :
    ∃ slots envs', step_batch [ToolEnv.init [c1Tool] 3] [c1Text] = .ok (slots, envs') ∧
      slots.length = ([ToolEnv.init [c1Tool] 3] : List ToolEnv).length ∧
      envs'.length = ([ToolEnv.init [c1Tool] 3] : List ToolEnv).length ∧
      ∀ (i : Nat) (hi : i < ([ToolEnv.init [c1Tool] 3] : List ToolEnv).length)
        (hit : i < ([c1Text] : List String).length)
        (hs : i < slots.length) (he : i < envs'.length),
        slots[i] = some (step (([ToolEnv.init [c1Tool] 3] : List ToolEnv)[i])
          (([c1Text] : List String)[i])).1 ∧
        envs'[i] = (step (([ToolEnv.init [c1Tool] 3] : List ToolEnv)[i])
          (([c1Text] : List String)[i])).2 :=
  step_batch_refines_step [ToolEnv.init [c1Tool] 3] [c1Text] "t1" c1Tool rfl c1Tool_batch
    (fun i hi _ => by
      cases i with
      | zero => exact ⟨J.jo [], rfl, "out", rfl⟩
      | succ j => exact absurd hi (by simp))

def faultToolBase : Tool :=
  { name := "pf", validate_args := fun _ => (true, ""), execute := fun _ => .error "boom",
    batch_execute := fun _ => .ok [], calculate_reward := fun _ _ => 0 }

/-- A tool with a faulting execution and the spec-default batching. -/
def faultTool : Tool := { faultToolBase with batch_execute := defaultBatchExecute faultToolBase }

def faultText : String := "<tool_call>\x7b\"name\": \"pf\"\x7d</tool_call>"

/-- C1 counterexample: with the spec-default batching, one valid call of a
known tool with schema-valid arguments whose execution faults makes
step_batch surface the fault, yielding no per-index results at all, while
step resolves the very same text on an equal episode to a scored
runtime-fault tuple: batched and unbatched processing of valid calls with
schema-valid arguments are not unconditionally equivalent. -/
theorem step_batch_vs_step_fault_counterexample :
    step_batch [ToolEnv.init [faultTool] 3] [faultText] = .error "boom" ∧
    (step (ToolEnv.init [faultTool] 3) faultText).1 =
      ⟨"Error executing tool 'pf': boom", PENALTY_FOR_INEFFECTIVE, false, ⟨true, false⟩⟩ :=
  ⟨rfl, rfl⟩

/-! ## Stateful tools: the Python execution context and episode cloning

python_tool.py keeps an execution context (self.globals) that persists
across calls of one PythonTool instance; tool_env.py's copy gives a clone a
fresh instance of every PythonTool while sharing every other tool by
reference.  Instance identity and mutation are modelled by a heap of
contexts (World); an episode's tool slots hold either a heap reference to a
PythonTool instance or a shared stateless tool value.

The Python runtime reached through exec is an external dependency of the
source; it is modelled on exactly the fragment the spec's scenarios
exercise: integer assignments (x = 42) and variable reads (print(x)), any
other code being a syntax fault.  Values are integers or the opaque
preloaded library modules. -/

inductive PyVal where
  | intv : Int → PyVal
  | libv : String → PyVal

/-- The preloaded execution context of PythonTool.__init__ (python_tool.py
lines 48-54): numpy under both names, pandas, pyplot and math. -/
def initialGlobals : List (String × PyVal) :=
  [("numpy", PyVal.libv "numpy"), ("np", PyVal.libv "numpy"), ("pd", PyVal.libv "pandas"),
   ("plt", PyVal.libv "matplotlib.pyplot"), ("math", PyVal.libv "math")]

/-- One PythonTool instance's mutable state. -/
structure PyState where
  globals : List (String × PyVal)

/-- Name lookup in an execution context. -/
def getVar (g : List (String × PyVal)) (x : String) : Option PyVal :=
  match g with
  | [] => none
  | (y, v) :: rest => if y = x then some v else getVar rest x

/-- Assignment into an execution context: an existing binding is updated in
place, a new one is appended, as a Python dict does. -/
def setVar (g : List (String × PyVal)) (x : String) (v : PyVal) : List (String × PyVal) :=
  match g with
  | [] => [(x, v)]
  | (y, w) :: rest => if y = x then (y, v) :: rest else (y, w) :: setVar rest x v

/-- The modelled command forms of the external runtime. -/
inductive PyCmd where
  | assign : String → Int → PyCmd
  | printVar : String → PyCmd

def isIdentChar (c : Char) : Bool := c.isAlpha || c.isDigit || c == '_'

def isIdent (s : String) : Bool :=
  match s.toList with
  | [] => false
  | c :: rest => (c.isAlpha || c == '_') && rest.all isIdentChar

def parseIntLit (s : String) : Option Int :=
  match s.toList with
  | '-' :: rest =>
    if !rest.isEmpty && rest.all isDigitChar then some (-(digitsToNat rest : Int)) else none
  | cs =>
    if !cs.isEmpty && cs.all isDigitChar then some ((digitsToNat cs : Int)) else none

/-- Recognise the modelled command forms. -/
def parseCode (code : String) : Option PyCmd :=
  let cs := (pyStrip code).toList
  if ("print(".toList).isPrefixOf cs && cs.getLast? == some ')' then
    let x := String.mk ((cs.drop 6).dropLast)
    if isIdent x then some (PyCmd.printVar x) else none
  else
    match splitFirst ['='] cs with
    | some (lhs, rhs) =>
      let x := pyStrip (String.mk lhs)
      let v := pyStrip (String.mk rhs)
      if isIdent x then
        match parseIntLit v with
        | some k => some (PyCmd.assign x k)
        | none => none
      else none
    | none => none

structure ExecOutput where
  stdout : String
  stderr : String

structure PyError where
  msg : String
  trace : String

/-- The external exec on the modelled fragment: an assignment mutates the
context and prints nothing, a read prints the value or raises NameError,
anything else raises a syntax fault.  Raising leaves the context as it
was. -/
def runCode (st : PyState) (code : String) : Except PyError ExecOutput × PyState :=
  match parseCode code with
  | none =>
    (.error ⟨"invalid syntax",
      "Traceback (most recent call last):\nSyntaxError: invalid syntax"⟩, st)
  | some (PyCmd.assign x k) => (.ok ⟨"", ""⟩, ⟨setVar st.globals x (PyVal.intv k)⟩)
  | some (PyCmd.printVar x) =>
    match getVar st.globals x with
    | some (PyVal.intv k) => (.ok ⟨toString k ++ "\n", ""⟩, st)
    | some (PyVal.libv m) => (.ok ⟨"<module '" ++ m ++ "'>\n", ""⟩, st)
    | none =>
      (.error ⟨"name '" ++ x ++ "' is not defined",
        "Traceback (most recent call last):\nNameError: name '" ++ x ++ "' is not defined"⟩, st)

/-! ### Serialisation, modelling json.dumps -/

def hexDigit (n : Nat) : Char := if n < 10 then Char.ofNat (48 + n) else Char.ofNat (87 + (n - 10))

def escapeJsonChar (c : Char) : List Char :=
  if c == '"' then ['\\', '"']
  else if c == '\\' then ['\\', '\\']
  else if c == '\n' then ['\\', 'n']
  else if c == '\t' then ['\\', 't']
  else if c == '\r' then ['\\', 'r']
  else if c.toNat == 8 then ['\\', 'b']
  else if c.toNat == 12 then ['\\', 'f']
  else if c.toNat < 32 || c.toNat > 126 then
    ['\\', 'u', hexDigit ((c.toNat / 4096) % 16), hexDigit ((c.toNat / 256) % 16),
     hexDigit ((c.toNat / 16) % 16), hexDigit (c.toNat % 16)]
  else [c]

def jdumpStr (s : String) : String :=
  String.mk ('"' :: ((s.toList.map escapeJsonChar).join ++ ['"']))

def joinSep (sep : String) : List String → String
  | [] => ""
  | [x] => x
  | x :: rest => x ++ sep ++ joinSep sep rest

mutual

/-- The external json.dumps with its default separators and escaping. -/
def jdump : J → String
  | J.null => "null"
  | J.jb true => "true"
  | J.jb false => "false"
  | J.jn q => if q.den = 1 then toString q.num else toString q
  | J.js s => jdumpStr s
  | J.ja xs => "[" ++ jdumpItems xs ++ "]"
  | J.jo kvs => "\x7b" ++ jdumpMembers kvs ++ "\x7d"

def jdumpItems : List J → String
  | [] => ""
  | [x] => jdump x
  | x :: y :: rest => jdump x ++ ", " ++ jdumpItems (y :: rest)

def jdumpMembers : List (String × J) → String
  | [] => ""
  | [p] => jdumpStr p.1 ++ ": " ++ jdump p.2
  | p :: q :: rest => jdumpStr p.1 ++ ": " ++ jdump p.2 ++ ", " ++ jdumpMembers (q :: rest)

end

/-- The Python str() type names, as embedded in an AttributeError. -/
def pyTypeName : J → String
  | J.null => "NoneType"
  | J.jb _ => "bool"
  | J.jn q => if q.den = 1 then "int" else "float"
  | J.js _ => "str"
  | J.ja _ => "list"
  | J.jo _ => "dict"

/-- PythonTool.execute (python_tool.py lines 56-107).  The code argument is
fetched with args.get("code", "") and stripped before the try block, so a
non-string "code" (or a non-dict argument) raises an AttributeError past the
function's boundary — the error case here.  Otherwise: empty code reports
"No code provided"; execution runs against the instance's context; a
runtime fault is caught and returned as a structured object with the error,
the traceback and the captured streams. -/
def PythonTool.execute (st : PyState) (args : J) : Except String (String × PyState) :=
  match args with
  | J.jo kvs =>
    match jlookup "code" kvs with
    | none => .ok (jdump (J.jo [("error", J.js "No code provided")]), st)
    | some (J.js s) =>
      let code := pyStrip s
      if code = "" then .ok (jdump (J.jo [("error", J.js "No code provided")]), st)
      else
        match runCode st code with
        | (.ok out, st') =>
          .ok (jdump (J.jo [("stdout", J.js out.stdout), ("stderr", J.js out.stderr)]), st')
        | (.error err, st') =>
          .ok (jdump (J.jo [("error", J.js err.msg), ("traceback", J.js err.trace),
            ("stdout", J.js ""), ("stderr", J.js "")]), st')
    | some v => .error ("AttributeError: '" ++ pyTypeName v ++ "' object has no attribute 'strip'")
  | v => .error ("AttributeError: '" ++ pyTypeName v ++ "' object has no attribute 'get'")

/-! ### The instance heap and cloning (ToolEnv.copy, tool_env.py 428-452) -/

/-- A tool slot of an episode: a heap reference to an owned PythonTool
instance, or a stateless tool shared by reference. -/
inductive ToolRef where
  | pyTool : Nat → ToolRef
  | statelessTool : Tool → ToolRef

abbrev SToolEnv := ToolEnvG ToolRef

/-- The heap of live PythonTool instances. -/
structure World where
  heap : List PyState

/-- PythonTool.__init__ (python_tool.py lines 27-54): allocate a fresh
instance whose context holds exactly the preloaded bindings. -/
def allocPyTool (w : World) : World × Nat :=
  (⟨w.heap ++ [⟨initialGlobals⟩]⟩, w.heap.length)

/-- The tool-list walk of copy (tool_env.py lines 435-443): a PythonTool
slot gets a freshly constructed instance, any other tool is reused. -/
def copyTools (w : World) : List ToolRef → World × List ToolRef
  | [] => (w, [])
  | tr :: rest =>
    match tr with
    | ToolRef.pyTool _ =>
      let a := allocPyTool w
      let r := copyTools a.1 rest
      (r.1, ToolRef.pyTool a.2 :: r.2)
    | ToolRef.statelessTool t =>
      let r := copyTools w rest
      (r.1, ToolRef.statelessTool t :: r.2)

/-- ToolEnv.copy (tool_env.py lines 428-452): fresh instances for stateful
tools, shared references for the rest, and the tracking state deep-copied
(value equality here) onto a new episode with the same turn limit. -/
def ToolEnvG.copy (w : World) (e : SToolEnv) : World × SToolEnv :=
  let r := copyTools w e.tools
  (r.1, { tools := r.2, max_turns := e.max_turns, rewards := e.rewards,
          tool_history := e.tool_history, steps_taken := e.steps_taken,
          _actions := e._actions, _actions_valid := e._actions_valid,
          _actions_effective := e._actions_effective })

def ToolRef.refName : ToolRef → String
  | ToolRef.pyTool _ => "python"
  | ToolRef.statelessTool t => t.name

/-- The tool_map lookup of an episode with referenced tools. -/
def lookupRef (e : SToolEnv) (s : String) : Option ToolRef :=
  e.tools.foldl (fun acc t => if t.refName = s then some t else acc) none

/-- Dispatch of a python call to the episode's own PythonTool instance, as
step routes it through tool_map: only that instance's heap cell changes. -/
def execPython (w : World) (e : SToolEnv) (code : String) : World × String :=
  match lookupRef e "python" with
  | some (ToolRef.pyTool id) =>
    match w.heap[id]? with
    | some st =>
      match PythonTool.execute st (J.jo [("code", J.js code)]) with
      | .ok (out, st') => (⟨w.heap.set id st'⟩, out)
      | .error msg => (w, msg)
    | none => (w, "")
  | _ => (w, "")

theorem copyTools_spec (l : List ToolRef) : ∀ (w : World),
    (copyTools w l).2.length = l.length ∧
    (∃ ext, (copyTools w l).1.heap = w.heap ++ ext) ∧
    ∀ (j : Nat) (hj : j < l.length) (hj2 : j < (copyTools w l).2.length),
      (∀ t, l[j] = ToolRef.statelessTool t →
        (copyTools w l).2[j] = ToolRef.statelessTool t) ∧
      (∀ id0, l[j] = ToolRef.pyTool id0 → ∃ id',
        (copyTools w l).2[j] = ToolRef.pyTool id' ∧
        w.heap.length ≤ id' ∧ id' < (copyTools w l).1.heap.length ∧
        (copyTools w l).1.heap[id']? = some ⟨initialGlobals⟩) := by
  induction l with
  | nil =>
    intro w
    refine ⟨rfl, ⟨[], by simp [copyTools]⟩, ?_⟩
    intro j hj
    simp at hj
  | cons tr rest ih =>
    intro w
    cases tr with
    | pyTool id0 =>
      have hred : copyTools w (ToolRef.pyTool id0 :: rest) =
          ((copyTools ⟨w.heap ++ [⟨initialGlobals⟩]⟩ rest).1,
           ToolRef.pyTool w.heap.length :: (copyTools ⟨w.heap ++ [⟨initialGlobals⟩]⟩ rest).2) := rfl
      rcases ih ⟨w.heap ++ [⟨initialGlobals⟩]⟩ with ⟨ihlen, ⟨ext2, ihheap⟩, ihj⟩
      have hheap : (copyTools w (ToolRef.pyTool id0 :: rest)).1.heap =
          w.heap ++ ([⟨initialGlobals⟩] ++ ext2) := by
        rw [hred]
        simp only at ihheap
        rw [ihheap, List.append_assoc]
      refine ⟨by rw [hred]; simp [ihlen], ⟨[⟨initialGlobals⟩] ++ ext2, hheap⟩, ?_⟩
      intro j hj hj2
      cases j with
      | zero =>
        constructor
        · intro t ht
          rw [List.getElem_cons_zero] at ht
          cases ht
        · intro id1 _
          refine ⟨w.heap.length, by rfl, Nat.le_refl _, ?_, ?_⟩
          · rw [hheap, List.length_append, List.length_append, List.length_singleton]
            omega
          · rw [hheap, ← List.append_assoc]
            rw [List.getElem?_append, if_pos (by simp)]
            rw [List.getElem?_append_right (Nat.le_refl _)]
            simp
      | succ j' =>
        have hj' : j' < rest.length := by simpa using hj
        have hj2' : j' < (copyTools ⟨w.heap ++ [⟨initialGlobals⟩]⟩ rest).2.length := by
          rw [ihlen]
          exact hj'
        rcases ihj j' hj' hj2' with ⟨ihs, ihp⟩
        constructor
        · intro t ht
          rw [List.getElem_cons_succ] at ht
          simp only [hred, List.getElem_cons_succ]
          exact ihs t ht
        · intro id1 ht
          rw [List.getElem_cons_succ] at ht
          rcases ihp id1 ht with ⟨id', hid, hlo, hhi, hcontent⟩
          refine ⟨id', ?_, by simp at hlo; omega, ?_, ?_⟩
          · simp only [hred, List.getElem_cons_succ]
            exact hid
          · rw [hred]
            exact hhi
          · rw [hred]
            exact hcontent
    | statelessTool t =>
      have hred : copyTools w (ToolRef.statelessTool t :: rest) =
          ((copyTools w rest).1, ToolRef.statelessTool t :: (copyTools w rest).2) := rfl
      rcases ih w with ⟨ihlen, ⟨ext2, ihheap⟩, ihj⟩
      refine ⟨by rw [hred]; simp [ihlen], ⟨ext2, by rw [hred]; exact ihheap⟩, ?_⟩
      intro j hj hj2
      cases j with
      | zero =>
        constructor
        · intro t' ht
          cases ht
          rfl
        · intro id1 ht
          cases ht
      | succ j' =>
        have hj' : j' < rest.length := by simpa using hj
        have hj2' : j' < (copyTools w rest).2.length := by
          rw [ihlen]
          exact hj'
        rcases ihj j' hj' hj2' with ⟨ihs, ihp⟩
        constructor
        · intro t' ht
          rw [List.getElem_cons_succ] at ht
          simp only [hred, List.getElem_cons_succ]
          exact ihs t' ht
        · intro id1 ht
          rw [List.getElem_cons_succ] at ht
          rcases ihp id1 ht with ⟨id', hid, hlo, hhi, hcontent⟩
          refine ⟨id', ?_, hlo, ?_, ?_⟩
          · simp only [hred, List.getElem_cons_succ]
            exact hid
          · rw [hred]
            exact hhi
          · rw [hred]
            exact hcontent

theorem execPython_frame (w : World) (e : SToolEnv) (code : String) (pid : Nat)
    (hp : lookupRef e "python" = some (ToolRef.pyTool pid)) (id' : Nat) (hne : id' ≠ pid) :
    (execPython w e code).1.heap[id']? = w.heap[id']? := by
  unfold execPython
  simp only [hp]
  cases hw : w.heap[pid]? with
  | none =>
    simp only [hw]
  | some st =>
    simp only [hw]
    cases hx : PythonTool.execute st (J.jo [("code", J.js code)]) with
    | error msg => simp only [hx]
    | ok out =>
      simp only [hx]
      show (World.mk (w.heap.set pid out.2)).heap[id']? = _
      exact List.getElem?_set_ne (by omega)

/-! ### The cloning scenario of the spec: x = 42 / 100 / 200 -/

def cloneW0 : World := ⟨[⟨initialGlobals⟩]⟩

def cloneE : SToolEnv := ⟨[ToolRef.pyTool 0], 10, [], [], 0, [], [], []⟩

def cloneC1 : World × SToolEnv := ToolEnvG.copy cloneW0 cloneE

def cloneC2 : World × SToolEnv := ToolEnvG.copy cloneC1.1 cloneE

def cloneS1 : World × String := execPython cloneC2.1 cloneE "x = 42"

def cloneS2 : World × String := execPython cloneS1.1 cloneC1.2 "x = 100"

def cloneS3 : World × String := execPython cloneS2.1 cloneC2.2 "x = 200"

def cloneR1 : World × String := execPython cloneS3.1 cloneE "print(x)"

def cloneR2 : World × String := execPython cloneR1.1 cloneC1.2 "print(x)"

def cloneR3 : World × String := execPython cloneR2.1 cloneC2.2 "print(x)"

/-- C7: cloning an episode gives it a freshly allocated PythonTool instance
per stateful slot — a new heap cell holding the preloaded context, never an
instance cell the source episode could reference — and the identical shared
value for every stateless slot, while history, rewards, steps_taken and the
three tracking sequences equal the source's at copy time.  Executing code
against one episode's instance never changes any other instance's cell, and
in the 42/100/200 scenario each of the source and the two clones reads back
exactly the value it set. -/
theorem copy_isolates_stateful_tools (w : World) (e : SToolEnv) :
    ((ToolEnvG.copy w e).2.max_turns = e.max_turns ∧
     (ToolEnvG.copy w e).2.rewards = e.rewards ∧
     (ToolEnvG.copy w e).2.tool_history = e.tool_history ∧
     (ToolEnvG.copy w e).2.steps_taken = e.steps_taken ∧
     (ToolEnvG.copy w e).2._actions = e._actions ∧
     (ToolEnvG.copy w e).2._actions_valid = e._actions_valid ∧
     (ToolEnvG.copy w e).2._actions_effective = e._actions_effective) ∧
    (ToolEnvG.copy w e).2.tools.length = e.tools.length ∧
    (∀ (j : Nat) (hj : j < e.tools.length) (hj2 : j < (ToolEnvG.copy w e).2.tools.length),
      (∀ t, e.tools[j] = ToolRef.statelessTool t →
        (ToolEnvG.copy w e).2.tools[j] = ToolRef.statelessTool t) ∧
      (∀ id0, e.tools[j] = ToolRef.pyTool id0 → ∃ id',
        (ToolEnvG.copy w e).2.tools[j] = ToolRef.pyTool id' ∧
        w.heap.length ≤ id' ∧
        (∀ id, ToolRef.pyTool id ∈ e.tools → id < w.heap.length → id' ≠ id) ∧
        (ToolEnvG.copy w e).1.heap[id']? = some ⟨initialGlobals⟩)) ∧
    (∀ (w' : World) (e' : SToolEnv) (code : String) (pid id' : Nat),
      lookupRef e' "python" = some (ToolRef.pyTool pid) → id' ≠ pid →
      (execPython w' e' code).1.heap[id']? = w'.heap[id']?) ∧
    (cloneR1.2 = jdump (J.jo [("stdout", J.js "42\n"), ("stderr", J.js "")]) ∧
     cloneR2.2 = jdump (J.jo [("stdout", J.js "100\n"), ("stderr", J.js "")]) ∧
     cloneR3.2 = jdump (J.jo [("stdout", J.js "200\n"), ("stderr", J.js "")])) := by
  refine ⟨⟨rfl, rfl, rfl, rfl, rfl, rfl, rfl⟩, ?_, ?_, ?_, rfl, rfl, rfl⟩
  · exact (copyTools_spec e.tools w).1
  · intro j hj hj2
    rcases copyTools_spec e.tools w with ⟨_, _, hjspec⟩
    rcases hjspec j hj hj2 with ⟨hs, hp⟩
    refine ⟨hs, ?_⟩
    intro id0 h0
    rcases hp id0 h0 with ⟨id', hid, hlo, _, hcontent⟩
    exact ⟨id', hid, hlo, fun id _ hidlt => by omega, hcontent⟩
  · intro w' e' code pid id' hp hne
    exact execPython_frame w' e' code pid hp id' hne

theorem copy_isolates_stateful_tools_witness :
    (ToolEnvG.copy cloneW0 cloneE).2.steps_taken = cloneE.steps_taken ∧
    (∃ id', (ToolEnvG.copy cloneW0 cloneE).2.tools.get ⟨0, by decide⟩ = ToolRef.pyTool id' ∧
      cloneW0.heap.length ≤ id' ∧
      (∀ id, ToolRef.pyTool id ∈ cloneE.tools → id < cloneW0.heap.length → id' ≠ id) ∧
      (ToolEnvG.copy cloneW0 cloneE).1.heap[id']? = some ⟨initialGlobals⟩) ∧
    cloneR1.2 = jdump (J.jo [("stdout", J.js "42\n"), ("stderr", J.js "")]) :=
  ⟨(copy_isolates_stateful_tools cloneW0 cloneE).1.2.2.2.1,
   ((copy_isolates_stateful_tools cloneW0 cloneE).2.2.1 0 (by decide) (by decide)).2 0 rfl,
   (copy_isolates_stateful_tools cloneW0 cloneE).2.2.2.2.1⟩

/-- C8 counterexample: an argument mapping whose "code" member is the
number 5 makes PythonTool's execute raise an AttributeError at the strip
call, before the guarded region — the call does not return a JSON string. -/
theorem python_execute_raises_on_nonstring_code :
    PythonTool.execute ⟨initialGlobals⟩ (J.jo [("code", J.jn 5)]) =
      .error "AttributeError: 'int' object has no attribute 'strip'" := rfl

/-- C8 (amended): for every state and every argument mapping whose "code"
member is absent or a string, execute returns normally with the
serialisation of a JSON object and never raises; a runtime fault during
execution yields exactly the object carrying the error message, the
traceback and the captured stdout/stderr streams.  (A mapping whose "code"
is not a string raises an AttributeError before the guarded region.) -/
theorem python_execute_never_raises (st : PyState) (kvs : List (String × J))
    (hcode : jlookup "code" kvs = none ∨ ∃ s, jlookup "code" kvs = some (J.js s)) :
    ∃ fields st', PythonTool.execute st (J.jo kvs) = .ok (jdump (J.jo fields), st') ∧
      (∀ s, jlookup "code" kvs = some (J.js s) → pyStrip s ≠ "" →
        ∀ err st2, runCode st (pyStrip s) = (.error err, st2) →
          fields = [("error", J.js err.msg), ("traceback", J.js err.trace),
            ("stdout", J.js ""), ("stderr", J.js "")] ∧ st' = st2) := by
  rcases hcode with hnone | ⟨s, hsome⟩
  · refine ⟨[("error", J.js "No code provided")], st, ?_, ?_⟩
    · simp [PythonTool.execute, hnone]
    · intro s hs
      rw [hnone] at hs
      cases hs
  · by_cases hempty : pyStrip s = ""
    · refine ⟨[("error", J.js "No code provided")], st, ?_, ?_⟩
      · simp [PythonTool.execute, hsome, hempty]
      · intro s' hs' hne
        rw [hsome] at hs'
        cases hs'
        exact absurd hempty hne
    · cases hrun : runCode st (pyStrip s) with
      | mk out st2 =>
        cases out with
        | ok o =>
          refine ⟨[("stdout", J.js o.stdout), ("stderr", J.js o.stderr)], st2, ?_, ?_⟩
          · simp [PythonTool.execute, hsome, hempty, hrun]
          · intro s' hs' hne err st3 hrun'
            rw [hsome] at hs'
            cases hs'
            rw [hrun] at hrun'
            cases hrun'
        | error err =>
          refine ⟨[("error", J.js err.msg), ("traceback", J.js err.trace),
            ("stdout", J.js ""), ("stderr", J.js "")], st2, ?_, ?_⟩
          · simp [PythonTool.execute, hsome, hempty, hrun]
          · intro s' hs' hne err' st3 hrun'
            rw [hsome] at hs'
            cases hs'
            rw [hrun] at hrun'
            cases hrun'
            exact ⟨rfl, rfl⟩

theorem python_execute_never_raises_witness :
    ∃ fields st', PythonTool.execute ⟨initialGlobals⟩
        (J.jo [("code", J.js "print(zzz)")]) = .ok (jdump (J.jo fields), st') ∧
      (∀ s, jlookup "code" [("code", J.js "print(zzz)")] = some (J.js s) → pyStrip s ≠ "" →
        ∀ err st2, runCode ⟨initialGlobals⟩ (pyStrip s) = (.error err, st2) →
          fields = [("error", J.js err.msg), ("traceback", J.js err.trace),
            ("stdout", J.js ""), ("stderr", J.js "")] ∧ st' = st2) :=
  python_execute_never_raises ⟨initialGlobals⟩ [("code", J.js "print(zzz)")]
    (Or.inr ⟨"print(zzz)", rfl⟩)

/-- C10: the clone's PythonTool is newly constructed: its heap cell holds
exactly the preloaded context; that context binds only numpy, np, pd, plt
and math, so any variable defined by earlier execution in the source is
absent from the clone's context and reading it there yields the captured
NameError result; meanwhile the clone's history, rewards, steps and
tracking sequences equal the source's at copy time. -/
theorem copy_resets_python_context (w : World) (e : SToolEnv) :
    (∀ (j : Nat) (hj : j < e.tools.length) (hj2 : j < (ToolEnvG.copy w e).2.tools.length)
       (id0 : Nat), e.tools[j] = ToolRef.pyTool id0 →
      ∃ id', (ToolEnvG.copy w e).2.tools[j] = ToolRef.pyTool id' ∧
        (ToolEnvG.copy w e).1.heap[id']? = some ⟨initialGlobals⟩) ∧
    (∀ x v, getVar initialGlobals x = some v →
      x = "numpy" ∨ x = "np" ∨ x = "pd" ∨ x = "plt" ∨ x = "math") ∧
    (∀ (c x : String), pyStrip c = c → c ≠ "" →
      parseCode c = some (PyCmd.printVar x) → getVar initialGlobals x = none →
      PythonTool.execute ⟨initialGlobals⟩ (J.jo [("code", J.js c)]) =
        .ok (jdump (J.jo [("error", J.js ("name '" ++ x ++ "' is not defined")),
          ("traceback", J.js ("Traceback (most recent call last):\nNameError: name '" ++ x ++
            "' is not defined")),
          ("stdout", J.js ""), ("stderr", J.js "")]), ⟨initialGlobals⟩)) ∧
    ((ToolEnvG.copy w e).2.steps_taken = e.steps_taken ∧
     (ToolEnvG.copy w e).2.rewards = e.rewards ∧
     (ToolEnvG.copy w e).2.tool_history = e.tool_history ∧
     (ToolEnvG.copy w e).2._actions = e._actions ∧
     (ToolEnvG.copy w e).2._actions_valid = e._actions_valid ∧
     (ToolEnvG.copy w e).2._actions_effective = e._actions_effective) := by
  refine ⟨?_, ?_, ?_, rfl, rfl, rfl, rfl, rfl, rfl⟩
  · intro j hj hj2 id0 h0
    rcases copyTools_spec e.tools w with ⟨_, _, hjspec⟩
    rcases (hjspec j hj hj2).2 id0 h0 with ⟨id', hid, _, _, hcontent⟩
    exact ⟨id', hid, hcontent⟩
  · intro x v h
    simp only [initialGlobals, getVar] at h
    split_ifs at h with h1 h2 h3 h4 h5
    · exact Or.inl h1.symm
    · exact Or.inr (Or.inl h2.symm)
    · exact Or.inr (Or.inr (Or.inl h3.symm))
    · exact Or.inr (Or.inr (Or.inr (Or.inl h4.symm)))
    · exact Or.inr (Or.inr (Or.inr (Or.inr h5.symm)))
  · intro c x hstrip hne hparse hvar
    have hl : jlookup "code" [("code", J.js c)] = some (J.js c) := rfl
    simp only [PythonTool.execute, hl]
    simp only [hstrip]
    rw [if_neg hne]
    simp only [runCode, hparse, hvar]

theorem copy_resets_python_context_witness :
    (∃ id', (ToolEnvG.copy cloneW0 cloneE).2.tools.get ⟨0, by decide⟩ = ToolRef.pyTool id' ∧
      (ToolEnvG.copy cloneW0 cloneE).1.heap[id']? = some ⟨initialGlobals⟩) ∧
    PythonTool.execute ⟨initialGlobals⟩ (J.jo [("code", J.js "print(zzz)")]) =
      .ok (jdump (J.jo [("error", J.js ("name '" ++ "zzz" ++ "' is not defined")),
        ("traceback", J.js ("Traceback (most recent call last):\nNameError: name '" ++ "zzz" ++
          "' is not defined")),
        ("stdout", J.js ""), ("stderr", J.js "")]), ⟨initialGlobals⟩) :=
  ⟨(copy_resets_python_context cloneW0 cloneE).1 0 (by decide) (by decide) 0 rfl,
   (copy_resets_python_context cloneW0 cloneE).2.2.1 "print(zzz)" "zzz" rfl (by decide) rfl rfl⟩

end AgentR1
